import Mathlib

/-!
# Verification of the Go rules/AI engine in `src/go-game.js`

Shallow embedding of the game-engine core of the single-file Go program:
board model, group/liberty flood fill, capture resolution and move legality
(`placeAndCapture`), legal-move generation (`legalMoves`), area scoring
(`chineseScore`), the heuristic evaluator, the random-playout simulator
(`randomPlayoutWinner`) and the AI move selector (`chooseAIMoveAsync`).

Modelling conventions:
* A JS board (array of arrays of 0/1/2) is a `List (List Nat)`.  Cell reads
  `board[r][c]` are `getCell`; writes are `setCell`.  All reads/writes in the
  source are bounds-guarded, matching the `getD`/`set` defaults used here.
* JS `Set` objects used by the flood fills are modelled as dedicated
  deduplicating lists (`floodGroup`) preserving insertion order, or as
  `Finset`s where the source only ever uses membership/size (`seen`,
  `border` of the territory scorer).
* JS numbers are modelled as exact rationals `ℚ`.  The single
  irrational-valued primitive, `Math.hypot`, is kept as an explicit function
  parameter `hq` of every definition that uses the heuristic, so all general
  theorems hold for every interpretation of `hypot`; concrete executions
  instantiate it with the rational approximation `hypotQ`.
* Randomness (`Math.random`), wall-clock time (`performance.now`) and the
  cancellation flag (`cancelRef.current`) are modelled as oracle functions
  supplied as arguments; every actual execution of the JS code corresponds
  to some choice of oracles.
* `async`/`await sleep(0)` is cooperative yielding with no observable
  effect on the computed values and is dropped; the `onProgress` callback
  and the `done` progress counter only feed the progress bar and are
  likewise dropped.
-/

namespace GoGame

/-! ## Types and utilities (go-game.js lines 7-35) -/
def EMPTY : Nat := 0

def BLACK : Nat := 1

def WHITE : Nat := 2

/-- `OTHER(c)` (line 9). -/
def OTHER (c : Nat) : Nat := if c = BLACK then WHITE else BLACK

/-- A board is a list of rows (line 11 makes an N×N array). -/
abbrev Board := List (List Nat)

/-- `makeBoard(size)` (lines 11-13). -/
def makeBoard (size : Nat) : Board :=
  List.replicate size (List.replicate size EMPTY)

/-- `cloneBoard(board)` (lines 15-17): a fresh content-equal copy. -/
def cloneBoard (board : Board) : Board := board.map (fun row => row.map (fun v => v))

/-- `boardKey(board)` (lines 19-22): serialize the board for simple-ko. -/
def boardKey (board : Board) : String :=
  String.intercalate "|" (board.map (fun row => String.join (row.map (fun v => toString v))))

/-- `inBounds(size, r, c)` (lines 24-26), over JS (integer) numbers. -/
def inBounds (size : Nat) (r c : Int) : Bool :=
  0 ≤ r && r < (size : Int) && 0 ≤ c && c < (size : Int)

/-- `neighbors(size, r, c)` (lines 28-35): the in-bounds orthogonal
neighbours, in the source's order up, down, left, right. -/
def neighbors (size r c : Nat) : List (Nat × Nat) :=
  (([((r : Int) - 1, (c : Int)), ((r : Int) + 1, (c : Int)),
     ((r : Int), (c : Int) - 1), ((r : Int), (c : Int) + 1)] :
      List (Int × Int)).filter (fun p => inBounds size p.1 p.2)).map
    (fun p => (p.1.toNat, p.2.toNat))

/-- Read `board[r][c]`.  All reads performed by the source are in bounds
(guarded by loop ranges or by `neighbors`); the `EMPTY` default is never
observable on the square boards the program builds. -/
def getCell (board : Board) (r c : Nat) : Nat := (board.getD r []).getD c EMPTY

/-- Write `board[r][c] = v` (in place in JS; functionally here). -/
def setCell (board : Board) (r c v : Nat) : Board :=
  board.set r ((board.getD r []).set c v)

/-- The board is square with well-typed rows, as every board built by the
program is (`makeBoard` and all in-place updates preserve it). -/
def SquareBoard (board : Board) : Prop :=
  ∀ row ∈ board, row.length = board.length

instance : DecidablePred SquareBoard := fun board =>
  decidable_of_iff (∀ row ∈ board, row.length = board.length) Iff.rfl

/-! ## Group flood fill: `floodGroup` (lines 37-60) -/
/-- The result record of `floodGroup`: group color, stone coordinates and
liberty coordinates.  The JS `Set`s are modelled as deduplicated lists in
insertion order. -/
structure Group where
  color : Nat
  stones : List (Nat × Nat)
  liberties : List (Nat × Nat)
deriving DecidableEq, Repr

/-- The `libs.add` part of the neighbour scan (line 51): record every
`EMPTY` neighbour, deduplicating as a JS `Set` does. -/
def addLibs (board : Board) (ns : List (Nat × Nat)) (libs : List (Nat × Nat)) :
    List (Nat × Nat) :=
  ns.foldl (fun L p => if getCell board p.1 p.2 = EMPTY ∧ p ∉ L then L ++ [p] else L) libs

/-- All in-bounds cells of a board of the given size (termination measure
bookkeeping only). -/
def allCellsF (size : Nat) : Finset (Nat × Nat) := Finset.range size ×ˢ Finset.range size

/-- Loop variant of the flood-fill `while` loop: it strictly decreases at
every iteration (`floodMeasure_lt_skip` / `floodMeasure_lt_new`), so the
fuel supplied by `floodGroup` is never exhausted
(`floodLoop_fuel_congr` / `floodMeasure_init_lt`). -/
def floodMeasure (size : Nat) (stack stones : List (Nat × Nat)) : Nat :=
  5 * ((stack.toFinset ∪ allCellsF size) \ stones.toFinset).card + stack.length

/-- The `while (stack.length)` loop of `floodGroup` (lines 44-54).  The
stack is kept top-first: JS pushes at the array end and pops from the end,
so the up/down/left/right pushes of line 52 arrive at the top in reverse
order.  The loop is phrased with structural fuel so that it evaluates by
kernel reduction; the fuel case is unreachable for the fuel `floodGroup`
supplies, because the loop variant `floodMeasure` strictly decreases. -/
def floodLoop (board : Board) (color : Nat) :
    Nat → List (Nat × Nat) → List (Nat × Nat) → List (Nat × Nat) →
      List (Nat × Nat) × List (Nat × Nat)
  | _, [], stones, libs => (stones, libs)
  | 0, _ :: _, stones, libs => (stones, libs)
  | fuel + 1, p :: rest, stones, libs =>
    if p ∈ stones then floodLoop board color fuel rest stones libs
    else
      let stones' := stones ++ [p]
      let ns := neighbors board.length p.1 p.2
      let libs' := addLibs board ns libs
      let pushes := ns.filter (fun q => decide (getCell board q.1 q.2 = color ∧ q ∉ stones'))
      floodLoop board color fuel (pushes.reverse ++ rest) stones' libs'

/-- Fuel that strictly exceeds the initial loop variant of any flood fill
on a `size`-sized board. -/
def floodFuel (size : Nat) : Nat := 5 * (size * size + 2)

/-- `floodGroup(board, r, c)` (lines 37-60): the connected same-color group
through `(r, c)` and its liberties. -/
def floodGroup (board : Board) (r c : Nat) : Group :=
  let color := getCell board r c
  let res := floodLoop board color (floodFuel board.length) [(r, c)] [] []
  ⟨color, res.1, res.2⟩

/-! ## Move legality and capture: `placeAndCapture` (lines 62-91) -/
/-- The `{ board, captured }` success record of `placeAndCapture`. -/
structure MoveRes where
  board : Board
  captured : Nat
deriving DecidableEq, Repr

/-- Removal of a captured group (lines 80-83): every stone cell is set to
`EMPTY` and the capture counter is incremented per stone. -/
def removeStones (stones : List (Nat × Nat)) (b : Board) (captured : Nat) : Board × Nat :=
  stones.foldl (fun acc p => (setCell acc.1 p.1 p.2 EMPTY, acc.2 + 1)) (b, captured)

/-- The capture scan over the placed stone's neighbours (lines 71-86):
for each orthogonally-adjacent opponent stone not yet seen, flood its
group and remove it if it has no liberties. -/
def captureFold (color : Nat) :
    List (Nat × Nat) → Board → Nat → Finset (Nat × Nat) → Board × Nat
  | [], b, captured, _ => (b, captured)
  | n :: rest, b, captured, seen =>
    if getCell b n.1 n.2 = OTHER color then
      if n ∈ seen then captureFold color rest b captured seen
      else
        let grp := floodGroup b n.1 n.2
        if grp.liberties = [] then
          let rem := removeStones grp.stones b captured
          captureFold color rest rem.1 rem.2 (insert n seen)
        else captureFold color rest b captured (insert n seen)
    else captureFold color rest b captured seen

/-- The board and capture count at line 87: the stone has been placed and
all adjacent zero-liberty opponent groups have been removed, but the
self-capture check has not yet run. -/
def afterCaptures (board : Board) (r c color : Nat) : Board × Nat :=
  let newB := setCell (cloneBoard board) r c color
  captureFold color (neighbors board.length r c) newB 0 ∅

/-- `placeAndCapture(board, r, c, color)` (lines 62-91); `none` models the
JS `null` result (occupied cell or suicide). -/
def placeAndCapture (board : Board) (r c color : Nat) : Option MoveRes :=
  if getCell board r c ≠ EMPTY then none
  else
    let bc := afterCaptures board r c color
    let self := floodGroup bc.1 r c
    if self.liberties = [] then none else some ⟨bc.1, bc.2⟩

/-! ## Legal move generation: `legalMoves` (lines 93-110) -/
/-- A candidate move as produced by `legalMoves`.  The JS pass entry
carries `r = c = -1` as an inert marker; no code path ever reads the
coordinates of a pass move (the `pass` flag is always checked first), so
the coordinates stay `Nat` here and `pass = true` identifies the entry
(placement entries have no `pass` field in JS, i.e. it is falsy;
`pass = false` here). -/
structure Move where
  r : Nat
  c : Nat
  res : MoveRes
  pass : Bool
deriving DecidableEq, Repr

instance : Inhabited Move := ⟨⟨0, 0, ⟨[], 0⟩, false⟩⟩

/-- Row-major list of board coordinates, as scanned by the
`for (r) for (c)` generation loops. -/
def cellsList (size : Nat) : List (Nat × Nat) :=
  (List.range size).flatMap (fun r => (List.range size).map (fun c => (r, c)))

/-- The pass entry appended at line 108. -/
def passMove (board : Board) : Move :=
  ⟨0, 0, ⟨cloneBoard board, 0⟩, true⟩

/-- One iteration of the legal-move generation loop body (lines 98-104):
skip occupied cells, try the placement, and drop it if it is illegal or
recreates the previous position (simple-ko). -/
def placeMoveAt (board : Board) (color : Nat) (koKeyLast : Option String)
    (p : Nat × Nat) : Option Move :=
  if getCell board p.1 p.2 ≠ EMPTY then none
  else
    match placeAndCapture board p.1 p.2 color with
    | none => none
    | some res =>
      match koKeyLast with
      | some k => if boardKey res.board = k then none else some ⟨p.1, p.2, res, false⟩
      | none => some ⟨p.1, p.2, res, false⟩

/-- `legalMoves(board, color, koKeyLast)` (lines 93-110): all legal
placements in row-major order, with the pass entry always appended last. -/
def legalMoves (board : Board) (color : Nat) (koKeyLast : Option String) : List Move :=
  ((cellsList board.length).filterMap (placeMoveAt board color koKeyLast)) ++ [passMove board]

/-- Claim C2 as stated, quantified over every board: a successful
`placeAndCapture` returns a board containing no zero-liberty group of the
mover's color anywhere. -/
def placedBoardHasNoDeadMoverGroup : Prop :=
  ∀ (board : Board) (r c color : Nat) (res : MoveRes),
    placeAndCapture board r c color = some res →
    ∀ p q : Nat, getCell res.board p q = color →
      (floodGroup res.board p q).liberties ≠ []

/-- The two-consecutive-pass early-exit test of the playout loop
(line 201): `replyMoves.length && replyMoves[replyMoves.length - 1].pass &&
replyMoves.length === 1`. -/
def replyIsPass (moves : List Move) : Bool :=
  decide (moves ≠ []) && (moves.getLast?.getD default).pass && (moves.length == 1)

/-- Claim C3 as stated: with a non-null previous key, no element of
`legalMoves` (the pass entry included) has a resulting position key equal
to the previous key. -/
def noElementRecreatesPreviousKey : Prop :=
  ∀ (board : Board) (color : Nat) (k : String),
    ∀ m ∈ legalMoves board color (some k), boardKey m.res.board ≠ k

/-! ## Territory scoring: `chineseScore` (lines 112-149) -/
/-- The `{ black, white }` area-score record. -/
structure Score where
  black : Nat
  white : Nat
deriving DecidableEq, Repr

/-- The `while (q.length)` BFS over one empty region (lines 133-143): pop a
cell, count it, push the unseen empty neighbours (marking them seen as JS
does at line 139) and record the colors of all non-empty neighbours in
`border`.  The `seen` boolean matrix is the `Finset` of its true entries;
`border` is the JS `Set` of colors.  Structural fuel as in `floodLoop`;
the fuel case is unreachable for the fuel `chineseScore` supplies, because
the same loop variant as `floodMeasure` strictly decreases
(`regionMeasure_step_lt`). -/
def regionLoop (board : Board) :
    Nat → List (Nat × Nat) → Finset (Nat × Nat) → Nat → Finset Nat →
      Finset (Nat × Nat) × Nat × Finset Nat
  | _, [], seen, count, border => (seen, count, border)
  | 0, _ :: _, seen, count, border => (seen, count, border)
  | fuel + 1, p :: rest, seen, count, border =>
    let ns := neighbors board.length p.1 p.2
    let news := ns.filter (fun q => decide (getCell board q.1 q.2 = EMPTY ∧ q ∉ seen))
    let borderAdd := (ns.filter (fun q => decide (getCell board q.1 q.2 ≠ EMPTY))).map
      (fun q => getCell board q.1 q.2)
    regionLoop board fuel (news.reverse ++ rest) (seen ∪ news.toFinset) (count + 1)
      (border ∪ borderAdd.toFinset)

/-- One step of the outer territory scan (lines 125-146), processing cell
`p` with the accumulated state `(seen, black, white)`. -/
def territoryStep (board : Board) (st : Finset (Nat × Nat) × Nat × Nat)
    (p : Nat × Nat) : Finset (Nat × Nat) × Nat × Nat :=
  if getCell board p.1 p.2 ≠ EMPTY ∨ p ∈ st.1 then st
  else
    let res := regionLoop board (floodFuel board.length) [p] (insert p st.1) 0 ∅
    let owner := if res.2.2.card = 1 then (if BLACK ∈ res.2.2 then BLACK else WHITE) else 0
    if owner = BLACK then (res.1, st.2.1 + res.2.1, st.2.2)
    else if owner = WHITE then (res.1, st.2.1, st.2.2 + res.2.1)
    else (res.1, st.2.1, st.2.2)

/-- The stone count of one color: the single stone-scan of lines 116-121
counts both colors in one pass; it equals one row-major filtered count per
color. -/
def stoneCount (board : Board) (color : Nat) : Nat :=
  ((cellsList board.length).filter (fun p => getCell board p.1 p.2 == color)).length

/-- `chineseScore(board)` (lines 112-149): stones on the board plus
single-color-surrounded empty regions. -/
def chineseScore (board : Board) : Score :=
  let final := (cellsList board.length).foldl (territoryStep board)
    (∅, stoneCount board BLACK, stoneCount board WHITE)
  ⟨final.2.1, final.2.2⟩

/-! ## JS numbers

`Rat` arithmetic does not reduce inside the Lean kernel, so the JS numbers
flowing through the heuristic/score pipeline are modelled by exact,
unreduced fractions `JNum` (integer numerator over natural denominator).
Every fraction the embedded code builds has a positive denominator, and on
such fractions the comparison operators agree with the rational value
(`JNum.ble_toRat` and friends below), so this is the same exact-rational
model, in a kernel-computable cloth.  Only comparisons ever observe scores
(sorting, maxima); score values are never tested for equality by the
source. -/
structure JNum where
  num : Int
  den : Nat
deriving DecidableEq, Repr

def JNum.add (x y : JNum) : JNum := ⟨x.num * y.den + y.num * x.den, x.den * y.den⟩

def JNum.mul (x y : JNum) : JNum := ⟨x.num * y.num, x.den * y.den⟩

def JNum.neg (x : JNum) : JNum := ⟨-x.num, x.den⟩

def JNum.sub (x y : JNum) : JNum := JNum.add x (JNum.neg y)

/-- Division, keeping the denominator nonnegative.  Division by zero never
occurs in the embedded code. -/
def JNum.div (x y : JNum) : JNum :=
  if 0 ≤ y.num then ⟨x.num * (y.den : Int), x.den * y.num.toNat⟩
  else ⟨-(x.num * (y.den : Int)), x.den * (-y.num).toNat⟩

def JNum.ble (x y : JNum) : Bool := decide (x.num * (y.den : Int) ≤ y.num * (x.den : Int))

def JNum.blt (x y : JNum) : Bool := decide (x.num * (y.den : Int) < y.num * (x.den : Int))

instance : Add JNum := ⟨JNum.add⟩

instance : Mul JNum := ⟨JNum.mul⟩

instance : Neg JNum := ⟨JNum.neg⟩

instance : Sub JNum := ⟨JNum.sub⟩

instance : Div JNum := ⟨JNum.div⟩

instance : LE JNum := ⟨fun x y => JNum.ble x y = true⟩

instance : LT JNum := ⟨fun x y => JNum.blt x y = true⟩

instance (n : Nat) : OfNat JNum n := ⟨⟨(n : Int), 1⟩⟩

instance (x y : JNum) : Decidable (x ≤ y) :=
  inferInstanceAs (Decidable (JNum.ble x y = true))

instance (x y : JNum) : Decidable (x < y) :=
  inferInstanceAs (Decidable (JNum.blt x y = true))

instance : Inhabited JNum := ⟨⟨0, 1⟩⟩

/-- `Math.max` on scores (`Math.max(0, ...)`, line 165). -/
def JNum.jmax (x y : JNum) : JNum := if JNum.ble x y then y else x

/-- Embedding of a fraction into `ℚ` (its value). -/
def JNum.toRat (x : JNum) : ℚ := (x.num : ℚ) / (x.den : ℚ)

def JNum.ofNat (n : Nat) : JNum := ⟨(n : Int), 1⟩

/-! ## Heuristic evaluator: `heuristic` (lines 151-174) -/
/-- `heuristic(board, move, color)` (lines 151-174) over exact fractions;
`hq` interprets `Math.hypot` (line 157).  The JS accumulation
`score += ...` is written as one sum, exact over fractions. -/
def heuristic (hq : JNum → JNum → JNum) (board : Board) (move : Move) (color : Nat) : JNum :=
  if move.pass then -((2 : JNum) / 10)
  else
    let size := board.length
    let center : JNum := (JNum.ofNat size - 1) / 2
    let dCenter := hq (JNum.ofNat move.r - center) (JNum.ofNat move.c - center)
    let capScore : JNum := JNum.ofNat move.res.captured * 5
    let helpScore : JNum := ((neighbors size move.r move.c).map (fun p =>
      if getCell board p.1 p.2 = color then
        JNum.jmax 0 ((3 : JNum) - JNum.ofNat (floodGroup board p.1 p.2).liberties.length)
      else 0)).foldl (fun a b => a + b) 0
    let atariScore : JNum :=
      if (floodGroup move.res.board move.r move.c).liberties.length = 1 then -(3 : JNum) else 0
    capScore + helpScore + atariScore + (JNum.ofNat size / 2 - dCenter) * ((2 : JNum) / 10)

/-- `hypotJ`: the concrete interpretation of `Math.hypot` used by concrete
executions — two Newton iterations for `Math.sqrt(a*a + b*b)`.
`Math.hypot` returns a binary-float approximation of the true square root;
any interpretation close to it orders the concrete counterexample boards
identically (the comparisons involved are far from ties), and every
general theorem below is quantified over all interpretations `hq`. -/
def hypotJ (a b : JNum) : JNum :=
  let s := a * a + b * b
  if s.num = 0 then 0
  else
    let g0 := (s + 1) / 2
    let g1 := (g0 + s / g0) / 2
    (g1 + s / g1) / 2

/-! ## Random playout: `randomPlayoutWinner` (lines 176-207) -/
/-- Oracle for the `Math.random()` draws of one playout: `jitter t i` is
the draw for move `i` of ply `t` (line 186; the code multiplies it by 0.3)
and `pick t` selects the sampled index below `K` (line 190, used as
`pick t % K`; this parametrization ranges over exactly the indices
`Math.floor(Math.random() * K)` can produce). -/
structure PlayRand where
  jitter : Nat → Nat → JNum
  pick : Nat → Nat

/-- The sort of line 187, `scored.sort((a, b) => b.s - a.s)`: a stable
descending sort on the score component (JS `Array.prototype.sort` is
stable), realized as a stable insertion sort. -/
def sortScored (l : List (Move × JNum)) : List (Move × JNum) :=
  l.insertionSort (fun a b => b.2 ≤ a.2)

/-- One ply of the playout loop (lines 184-190): enumerate legal moves,
score each with jittered heuristic, sort descending, sample uniformly from
the top `K = min(10, count)`. -/
def playoutPick (hq : JNum → JNum → JNum) (o : PlayRand) (board : Board) (turn : Nat)
    (koKeyLast : Option String) (t : Nat) : Move :=
  let moves := legalMoves board turn koKeyLast
  let scored := moves.enum.map
    (fun e => (e.2, heuristic hq board e.2 turn + o.jitter t e.1 * ((3 : JNum) / 10)))
  let sorted := sortScored scored
  let K := min 10 sorted.length
  (sorted.getD (o.pick t % K) default).1

/-- The playout loop (lines 183-204).  Besides the final board it returns
the list of moves played, which the loop-shape theorems quantify over. -/
def playoutLoop (hq : JNum → JNum → JNum) (o : PlayRand) :
    Nat → Board → Option String → Nat → Nat → Board × List Move
  | 0, board, _, _, _ => (board, [])
  | n + 1, board, koKeyLast, turn, t =>
    let pick := playoutPick hq o board turn koKeyLast t
    let next := pick.res.board
    let newKey := boardKey next
    if pick.pass && replyIsPass (legalMoves next (OTHER turn) (some newKey)) then
      (next, [pick])
    else
      let rec2 := playoutLoop hq o n next (some newKey) (OTHER turn) (t + 1)
      (rec2.1, pick :: rec2.2)

/-- `randomPlayoutWinner(startBoard, colorToPlay, plies)` (lines 177-207):
play the biased-random playout, then the higher area wins and an exact tie
goes to WHITE (line 206). -/
def randomPlayoutWinner (hq : JNum → JNum → JNum) (o : PlayRand) (startBoard : Board)
    (colorToPlay : Nat) (plies : Nat) : Nat :=
  let fin := playoutLoop hq o plies (cloneBoard startBoard) none colorToPlay 0
  let s := chineseScore fin.1
  if s.black > s.white then BLACK else WHITE

/-! ## AI move selection: `chooseAIMoveAsync` (lines 212-292) -/
/-- Oracles for one `chooseAIMoveAsync` decision: `cancel k` is the value
of `cancelRef.current` at its `k`-th poll, `now k` the `k`-th
`performance.now()` reading, and `prand i` the randomness of the `i`-th
`randomPlayoutWinner` call.  Every real execution (monotone clock,
latch-like cancellation flag) corresponds to one choice of oracles. -/
structure AIOracle where
  cancel : Nat → Bool
  now : Nat → JNum
  prand : Nat → PlayRand

/-- `Math.max(1, Math.min(5, level))` (line 234). -/
def clampLevel (level : Int) : Int := max 1 (min 5 level)

/-- The candidate limit of line 218 (note: it reads the raw `level`, not
the clamped `L`). -/
def candidateLimit (sz : Nat) (level : Int) : Nat :=
  if sz ≤ 9 then 18 else if sz = 11 then 28 else if level ≤ 2 then 22 else 45

/-- The playout-budget table of line 230, indexed by `L - 1`. -/
def playoutsTable : List Nat := [0, 6, 20, 60, 120]

/-- Per-playout ply caps for 9×9 boards (line 231). -/
def plies9 : List Nat := [0, 30, 60, 100, 140]

/-- Per-playout ply caps for 11×11 boards (line 232). -/
def plies11 : List Nat := [0, 40, 80, 120, 160]

/-- Per-playout ply caps for larger boards (line 233). -/
def plies19 : List Nat := [0, 50, 100, 140, 180]

/-- `now - start > timeBudgetMs` (lines 269, 288); `none` is the
`Infinity` budget of levels 3-5 without blitz, for which the check is
always false. -/
def timeExceeded (start nowv : JNum) (budget : Option JNum) : Bool :=
  match budget with
  | none => false
  | some tb => decide (tb < nowv - start)

/-- The level-1 fast path (lines 243-252): best heuristic over the
candidates, polling the cancellation flag once per candidate (`k` counts
oracle reads); `none` models the JS `null` on cancellation. -/
def level1Loop (hq : JNum → JNum → JNum) (o : AIOracle) (board : Board) (color : Nat) :
    List Move → Nat → Move → JNum → Option Move
  | [], _, best, _ => some best
  | m :: rest, k, best, bestS =>
    if o.cancel k then none
    else
      let s := heuristic hq board m color
      if bestS < s then level1Loop hq o board color rest (k + 1) m s
      else level1Loop hq o board color rest (k + 1) best bestS

/-- The per-candidate playout loop (lines 266-279): poll cancellation,
check the time budget (breaking out when exceeded), run one playout from
the post-move position, tally wins.  Returns the win count and the oracle
counters, or `none` on cancellation. -/
def mcPlayouts (hq : JNum → JNum → JNum) (o : AIOracle) (color : Nat) (plies : Nat)
    (nextBoard : Board) (start : JNum) (budget : Option JNum) :
    Nat → Nat → Nat → Nat → Option (Nat × Nat × Nat)
  | 0, k, w, wins => some (wins, k, w)
  | i + 1, k, w, wins =>
    if o.cancel k then none
    else if timeExceeded start (o.now (k + 1)) budget then some (wins, k + 2, w)
    else
      let winner := randomPlayoutWinner hq (o.prand w) nextBoard (OTHER color) plies
      let wins2 := if winner = color then wins + 1 else wins
      mcPlayouts hq o color plies nextBoard start budget i (k + 2) (w + 1) wins2

/-- The candidate loop of the Monte-Carlo path (lines 260-289): per
candidate, poll cancellation, run the playout budget, score
`wins + 0.1 * heuristic`, track the best (`none` is the initial
`-Infinity`), and stop early when the time budget is exceeded. -/
def mcOuter (hq : JNum → JNum → JNum) (o : AIOracle) (board : Board) (color : Nat)
    (playouts plies : Nat) (start : JNum) (budget : Option JNum) :
    List Move → Nat → Nat → Move → Option JNum → Option Move
  | [], _, _, best, _ => some best
  | m :: rest, k, w, best, bestScore =>
    if o.cancel k then none
    else
      match mcPlayouts hq o color plies m.res.board start budget playouts (k + 1) w 0 with
      | none => none
      | some (wins, k2, w2) =>
        let tie := heuristic hq board m color * ((1 : JNum) / 10)
        let sc := JNum.ofNat wins + tie
        let isBetter : Bool := match bestScore with
          | none => true
          | some b => JNum.blt b sc
        let best2 := if isBetter then m else best
        let bestScore2 := if isBetter then some sc else bestScore
        if timeExceeded start (o.now k2) budget then some best2
        else mcOuter hq o board color playouts plies start budget rest (k2 + 1) w2
          best2 bestScore2

/-- Candidate pruning (lines 221-227): all capturing moves, plus the
non-capturing moves ranked by heuristic and truncated to the limit; if the
result is empty, all moves are pushed back in. -/
def pruneCandidates (hq : JNum → JNum → JNum) (board : Board) (color : Nat)
    (limit : Nat) (moves : List Move) : List Move :=
  let captures := moves.filter (fun m => m.res.captured > 0)
  let noncaps := ((moves.filter (fun m => m.res.captured = 0)).insertionSort
    (fun a b => heuristic hq board b color ≤ heuristic hq board a color)).take
    (limit - captures.length)
  let candidates0 := captures ++ noncaps
  if candidates0.length = 0 then candidates0 ++ moves else candidates0

/-- `chooseAIMoveAsync(board, color, level, koKeyLast, onProgress,
cancelRef, blitz)` (lines 212-292); `none` models the JS `null`
(cancelled).  Cooperative yielding (`await sleep(0)`), progress reporting
and the `done` counter have no effect on the returned move and are
dropped; `Math.max(0, candidateLimit - captures.length)` of line 224 is
the truncated `Nat` subtraction of `take`. -/
def chooseAIMoveAsync (hq : JNum → JNum → JNum) (o : AIOracle) (board : Board) (color : Nat)
    (level : Int) (koKeyLast : Option String) (blitz : Bool) : Option Move :=
  let moves := legalMoves board color koKeyLast
  if moves.length = 1 ∧ (moves.getD 0 default).pass then some (moves.getD 0 default)
  else
    let sz := board.length
    let candidates := pruneCandidates hq board color (candidateLimit sz level) moves
    let L := clampLevel level
    let playouts := playoutsTable.getD (L - 1).toNat 0
    let plies := (if sz ≤ 9 then plies9 else if sz = 11 then plies11 else plies19).getD
      (L - 1).toNat 0
    let start := o.now 0
    let budget : Option JNum := if blitz then some 150
      else if L ≤ 2 then some (if sz ≤ 9 then 300 else 500) else none
    if L = 1 then
      level1Loop hq o board color candidates 1 (candidates.getD 0 default)
        (-(1000000000 : JNum))
    else
      mcOuter hq o board color playouts plies start budget candidates 1 0
        (candidates.getD 0 default) none

/-- The successor playout state after move `m` (lines 192-197): the picked
move's resulting board becomes current, its key becomes the simple-ko key,
the turn flips. -/
def stepState (st : Board × Option String × Nat) (m : Move) : Board × Option String × Nat :=
  (m.res.board, some (boardKey m.res.board), OTHER st.2.2)

/-- The states visited when the given moves are played from the given
start state (the state after move `i` is entry `i`). -/
def statesFrom (st : Board × Option String × Nat) : List Move → List (Board × Option String × Nat)
  | [] => []
  | m :: rest => stepState st m :: statesFrom (stepState st m) rest

/-- The break test the playout loop applies after playing `m` into state
`st` (lines 198-203): the move was a pass, and pass is the opponent's only
legal answer. -/
def breakAfter (st : Board × Option String × Nat) (m : Move) : Bool :=
  m.pass && replyIsPass (legalMoves st.1 st.2.2 st.2.1)

/-- All-zero playout randomness (a value `Math.random()` can attain). -/
def prZero : PlayRand := ⟨fun _ _ => 0, fun _ => 0⟩

/-- The playout randomness of the C7 counterexample: zero jitter, and the
sampled index is 4 for the first two plies (the pass entry of a 5-move
sorted list), then 0. -/
def prCx : PlayRand := ⟨fun _ _ => 0, fun t => if t < 2 then 4 else 0⟩

/-- An `chooseAIMoveAsync` oracle environment that never cancels, with a
constant clock and all-zero playout randomness. -/
def oZero : AIOracle := ⟨fun _ => false, fun _ => 0, fun _ => prZero⟩

/-- Claim C7 as stated (its early-stop half): the playout stops as soon as
two consecutive passes occur, i.e. nothing further is played after the
second of two consecutively-chosen passes. -/
def playoutStopsOnTwoPasses : Prop :=
  ∀ (hq : JNum → JNum → JNum) (o : PlayRand) (plies : Nat) (board : Board) (color : Nat)
    (i : Nat) (m1 m2 : Move),
    (playoutLoop hq o plies (cloneBoard board) none color 0).2[i]? = some m1 →
    (playoutLoop hq o plies (cloneBoard board) none color 0).2[i + 1]? = some m2 →
    m1.pass = true → m2.pass = true →
    (playoutLoop hq o plies (cloneBoard board) none color 0).2.length = i + 2

/-- Claim C9 as stated: for every level outside 1..5 the AI decision entry
point fails fast — it produces no move, for any input. -/
def outOfRangeLevelFailsFast : Prop :=
  ∀ (level : Int), (level < 1 ∨ 5 < level) →
    ∀ (hq : JNum → JNum → JNum) (o : AIOracle) (board : Board) (color : Nat)
      (koKeyLast : Option String) (blitz : Bool),
      chooseAIMoveAsync hq o board color level koKeyLast blitz = none

/-! ### Territory-scoring correctness (C5)

Spec-side notions: reachability through empty cells, the region of an
empty cell, and the set of stone colors bordering a region. -/
/-- One step between empty cells: `q` is an in-bounds neighbour of `p` and
is empty. -/
def EmptyStep (b : Board) (p q : Nat × Nat) : Prop :=
  q ∈ neighbors b.length p.1 p.2 ∧ getCell b q.1 q.2 = EMPTY

/-- Reachability through empty cells (the maximal 4-connected empty region
of `p` is `{q | EmptyReach b p q}` for empty `p`). -/
def EmptyReach (b : Board) (p q : Nat × Nat) : Prop :=
  Relation.ReflTransGen (EmptyStep b) p q

/-- The stone colors adjacent to a single cell. -/
def nbrColors (b : Board) (x : Nat × Nat) : Finset Nat :=
  (((neighbors b.length x.1 x.2).filter (fun q => decide (getCell b q.1 q.2 ≠ EMPTY))).map
    (fun q => getCell b q.1 q.2)).toFinset

/-- The stone colors adjacent to any cell of a finite set. -/
def bColors (b : Board) (X : Finset (Nat × Nat)) : Finset Nat := X.biUnion (nbrColors b)

/-- The stone colors bordering the empty region of `p`. -/
def RegionBorder (b : Board) (p : Nat × Nat) : Set Nat :=
  {v | ∃ q, EmptyReach b p q ∧ v ∈ nbrColors b q}

/-- All cells hold one of the three legal values, as on every board the
program builds. -/
def ValidBoard (b : Board) : Prop :=
  ∀ row ∈ b, ∀ v ∈ row, v = EMPTY ∨ v = BLACK ∨ v = WHITE

instance : DecidablePred ValidBoard := fun b =>
  decidable_of_iff (∀ row ∈ b, ∀ v ∈ row, v = EMPTY ∨ v = BLACK ∨ v = WHITE) Iff.rfl

/-- Loop variant of the territory BFS, as for `floodLoop`. -/
def regionMeasure (size : Nat) (stack : List (Nat × Nat))
    (seen : Finset (Nat × Nat)) : Nat :=
  5 * ((stack.toFinset ∪ allCellsF size) \ seen).card + stack.length

/-- Spec-side notion of a territory cell: an in-bounds empty cell whose
maximal empty region is bordered by stones of exactly the one color `c`. -/
def territorySet (b : Board) (c : Nat) : Set (Nat × Nat) :=
  {q | q.1 < b.length ∧ q.2 < b.length ∧ getCell b q.1 q.2 = EMPTY ∧
    RegionBorder b q = {c}}

/-! ### Basic board lemmas -/
theorem cloneBoard_eq (board : Board) : cloneBoard board = board := by
  simp [cloneBoard]

theorem length_setCell (board : Board) (r c v : Nat) :
    (setCell board r c v).length = board.length := by
  simp [setCell]

theorem mem_neighbors {size r c : Nat} {q : Nat × Nat} :
    q ∈ neighbors size r c ↔
      (q.1 < size ∧ q.2 < size) ∧
        ((q.1 + 1 = r ∧ q.2 = c) ∨ (q.1 = r + 1 ∧ q.2 = c) ∨
         (q.1 = r ∧ q.2 + 1 = c) ∨ (q.1 = r ∧ q.2 = c + 1)) := by
  obtain ⟨x, y⟩ := q
  constructor
  · intro h
    simp only [neighbors, List.mem_map] at h
    obtain ⟨a, ha, hEq⟩ := h
    rw [List.mem_filter] at ha
    obtain ⟨hmem, hbd⟩ := ha
    simp only [inBounds, Bool.and_eq_true, decide_eq_true_eq] at hbd
    obtain ⟨⟨⟨hb1, hb2⟩, hb3⟩, hb4⟩ := hbd
    simp only [Prod.mk.injEq] at hEq
    obtain ⟨hx, hy⟩ := hEq
    simp only [List.mem_cons, List.not_mem_nil, or_false] at hmem
    rcases hmem with rfl | rfl | rfl | rfl <;>
      dsimp only at hb1 hb2 hb3 hb4 hx hy <;> refine ⟨⟨by omega, by omega⟩, ?_⟩
    · left; constructor <;> omega
    · right; left; constructor <;> omega
    · right; right; left; constructor <;> omega
    · right; right; right; constructor <;> omega
  · rintro ⟨⟨hq1, hq2⟩, hcase⟩
    simp only [neighbors, List.mem_map]
    rcases hcase with ⟨h1, h2⟩ | ⟨h1, h2⟩ | ⟨h1, h2⟩ | ⟨h1, h2⟩
    · refine ⟨((r : Int) - 1, (c : Int)), ?_, ?_⟩
      · rw [List.mem_filter]
        refine ⟨by simp, ?_⟩
        simp only [inBounds, Bool.and_eq_true, decide_eq_true_eq]
        omega
      · simp only [Prod.mk.injEq]; constructor <;> omega
    · refine ⟨((r : Int) + 1, (c : Int)), ?_, ?_⟩
      · rw [List.mem_filter]
        refine ⟨by simp, ?_⟩
        simp only [inBounds, Bool.and_eq_true, decide_eq_true_eq]
        omega
      · simp only [Prod.mk.injEq]; constructor <;> omega
    · refine ⟨((r : Int), (c : Int) - 1), ?_, ?_⟩
      · rw [List.mem_filter]
        refine ⟨by simp, ?_⟩
        simp only [inBounds, Bool.and_eq_true, decide_eq_true_eq]
        omega
      · simp only [Prod.mk.injEq]; constructor <;> omega
    · refine ⟨((r : Int), (c : Int) + 1), ?_, ?_⟩
      · rw [List.mem_filter]
        refine ⟨by simp, ?_⟩
        simp only [inBounds, Bool.and_eq_true, decide_eq_true_eq]
        omega
      · simp only [Prod.mk.injEq]; constructor <;> omega

theorem mem_neighbors_bounds {size r c : Nat} {q : Nat × Nat}
    (h : q ∈ neighbors size r c) : q.1 < size ∧ q.2 < size :=
  (mem_neighbors.mp h).1

theorem neighbors_symm {size : Nat} {p q : Nat × Nat}
    (h : q ∈ neighbors size p.1 p.2) (hp1 : p.1 < size) (hp2 : p.2 < size) :
    p ∈ neighbors size q.1 q.2 := by
  rw [mem_neighbors] at h ⊢
  obtain ⟨_, h | h | h | h⟩ := h <;> refine ⟨⟨hp1, hp2⟩, ?_⟩ <;> omega

theorem length_neighbors_le (size r c : Nat) : (neighbors size r c).length ≤ 4 := by
  simp only [neighbors, List.length_map]
  have := List.length_filter_le (fun p : Int × Int => inBounds size p.1 p.2)
    [((r : Int) - 1, (c : Int)), ((r : Int) + 1, (c : Int)),
     ((r : Int), (c : Int) - 1), ((r : Int), (c : Int) + 1)]
  simpa using this

theorem neighbors_nodup (size r c : Nat) : (neighbors size r c).Nodup := by
  have hf : (([((r : Int) - 1, (c : Int)), ((r : Int) + 1, (c : Int)),
      ((r : Int), (c : Int) - 1), ((r : Int), (c : Int) + 1)] :
      List (Int × Int)).filter (fun p => inBounds size p.1 p.2)).Nodup := by
    apply List.Nodup.filter
    refine List.nodup_cons.mpr ⟨?_, List.nodup_cons.mpr ⟨?_,
      List.nodup_cons.mpr ⟨?_, List.nodup_singleton _⟩⟩⟩
    · simp only [List.mem_cons, List.not_mem_nil, or_false, Prod.mk.injEq, not_or]
      refine ⟨?_, ?_, ?_⟩ <;> rintro ⟨h1, h2⟩ <;> omega
    · simp only [List.mem_cons, List.not_mem_nil, or_false, Prod.mk.injEq, not_or]
      refine ⟨?_, ?_⟩ <;> rintro ⟨h1, h2⟩ <;> omega
    · simp only [List.mem_cons, List.not_mem_nil, or_false, Prod.mk.injEq]
      rintro ⟨h1, h2⟩; omega
  refine List.Nodup.map_on ?_ hf
  intro x hx y hy hxy
  rw [List.mem_filter] at hx hy
  simp only [inBounds, Bool.and_eq_true, decide_eq_true_eq] at hx hy
  obtain ⟨x1, x2⟩ := x
  obtain ⟨y1, y2⟩ := y
  obtain ⟨-, ⟨⟨⟨hx1, -⟩, hx3⟩, -⟩⟩ := hx
  obtain ⟨-, ⟨⟨⟨hy1, -⟩, hy3⟩, -⟩⟩ := hy
  dsimp only at hx1 hx3 hy1 hy3
  simp only [Prod.mk.injEq] at hxy ⊢
  obtain ⟨h1, h2⟩ := hxy
  constructor <;> omega

theorem mem_allCellsF {size : Nat} {q : Nat × Nat} :
    q ∈ allCellsF size ↔ q.1 < size ∧ q.2 < size := by
  simp [allCellsF, Finset.mem_product]

theorem floodMeasure_lt_skip (A : Finset (Nat × Nat)) (p : Nat × Nat)
    (rest stones : List (Nat × Nat)) :
    5 * ((rest.toFinset ∪ A) \ stones.toFinset).card + rest.length <
      5 * (((p :: rest).toFinset ∪ A) \ stones.toFinset).card + (p :: rest).length := by
  have hsub : (rest.toFinset ∪ A) \ stones.toFinset ⊆
      ((p :: rest).toFinset ∪ A) \ stones.toFinset := by
    apply Finset.sdiff_subset_sdiff _ le_rfl
    apply Finset.union_subset_union _ le_rfl
    intro x hx
    simp only [List.mem_toFinset, List.mem_cons] at hx ⊢
    exact Or.inr hx
  have := Finset.card_le_card hsub
  simp only [List.length_cons]
  omega

theorem floodMeasure_lt_new (A : Finset (Nat × Nat)) (p : Nat × Nat)
    (rest stones pushes : List (Nat × Nat)) (hp : p ∉ stones)
    (hpush : ∀ q ∈ pushes, q ∈ A) (hlen : pushes.length ≤ 4) :
    5 * (((pushes ++ rest).toFinset ∪ A) \ (stones ++ [p]).toFinset).card +
        (pushes ++ rest).length <
      5 * (((p :: rest).toFinset ∪ A) \ stones.toFinset).card + (p :: rest).length := by
  have hpU0 : p ∈ ((p :: rest).toFinset ∪ A) \ stones.toFinset := by
    rw [Finset.mem_sdiff, Finset.mem_union, List.mem_toFinset, List.mem_toFinset]
    exact ⟨Or.inl (List.mem_cons_self p rest), hp⟩
  have hsub : ((pushes ++ rest).toFinset ∪ A) \ (stones ++ [p]).toFinset ⊆
      (((p :: rest).toFinset ∪ A) \ stones.toFinset).erase p := by
    intro x hx
    simp only [Finset.mem_sdiff, Finset.mem_union, List.mem_toFinset, List.mem_append,
      List.mem_cons, List.not_mem_nil, or_false, Finset.mem_erase, not_or] at hx ⊢
    obtain ⟨hx1, hx2, hx3⟩ := hx
    refine ⟨hx3, ?_, hx2⟩
    rcases hx1 with (hq | hq) | hq
    · exact Or.inr (hpush x hq)
    · exact Or.inl (Or.inr hq)
    · exact Or.inr hq
  have hcard := Finset.card_le_card hsub
  rw [Finset.card_erase_of_mem hpU0] at hcard
  have hpos : 0 < (((p :: rest).toFinset ∪ A) \ stones.toFinset).card :=
    Finset.card_pos.mpr ⟨p, hpU0⟩
  simp only [List.length_append, List.length_cons] at *
  omega

/-- Each flood-fill iteration strictly decreases `floodMeasure`; pushed
cells are in-bounds neighbours. -/
theorem floodMeasure_step_lt {board : Board} {color : Nat} {p : Nat × Nat}
    {rest stones : List (Nat × Nat)} (hp : p ∉ stones) :
    floodMeasure board.length
        (((neighbors board.length p.1 p.2).filter
          (fun q => decide (getCell board q.1 q.2 = color ∧ q ∉ stones ++ [p]))).reverse ++ rest)
        (stones ++ [p]) <
      floodMeasure board.length (p :: rest) stones := by
  apply floodMeasure_lt_new _ p rest stones _ hp
  · intro q hq
    rw [List.mem_reverse, List.mem_filter] at hq
    rw [mem_allCellsF]
    exact mem_neighbors_bounds hq.1
  · rw [List.length_reverse]
    calc (List.filter _ (neighbors board.length p.1 p.2)).length
        ≤ (neighbors board.length p.1 p.2).length := List.length_filter_le _ _
      _ ≤ 4 := length_neighbors_le _ _ _

/-- The flood-fill loop result does not depend on the fuel, provided the
fuel exceeds the loop variant: the `while` loop finishes first. -/
theorem floodLoop_fuel_congr (board : Board) (color : Nat) :
    ∀ f1 f2 stack stones libs, floodMeasure board.length stack stones < f1 →
      floodMeasure board.length stack stones < f2 →
      floodLoop board color f1 stack stones libs = floodLoop board color f2 stack stones libs := by
  intro f1
  induction f1 with
  | zero => intro f2 stack stones libs h1 _; omega
  | succ f1 ih =>
    intro f2 stack stones libs h1 h2
    match stack with
    | [] => cases f2 <;> rfl
    | p :: rest =>
      have hlen : 1 ≤ floodMeasure board.length (p :: rest) stones := by
        unfold floodMeasure; simp [List.length_cons]; omega
      match f2 with
      | 0 => omega
      | f2 + 1 =>
        by_cases hp : p ∈ stones
        · have hlt := floodMeasure_lt_skip (allCellsF board.length) p rest stones
          simp only [floodLoop, if_pos hp]
          exact ih f2 rest stones libs (by unfold floodMeasure at *; omega)
            (by unfold floodMeasure at *; omega)
        · have hlt := @floodMeasure_step_lt board color p rest stones hp
          simp only [floodLoop, if_neg hp]
          exact ih f2 _ _ _ (by omega) (by omega)

theorem card_allCellsF (size : Nat) : (allCellsF size).card = size * size := by
  simp [allCellsF]

/-- The fuel supplied by `floodGroup` strictly exceeds the initial loop
variant, so the fuel-exhaustion case of `floodLoop` is unreachable. -/
theorem floodMeasure_init_lt (size : Nat) (p : Nat × Nat) :
    floodMeasure size [p] [] < floodFuel size := by
  unfold floodMeasure floodFuel
  have h1 : (([p].toFinset ∪ allCellsF size) \ ([] : List (Nat × Nat)).toFinset).card ≤
      size * size + 1 := by
    calc (([p].toFinset ∪ allCellsF size) \ ([] : List (Nat × Nat)).toFinset).card
        ≤ ([p].toFinset ∪ allCellsF size).card := Finset.card_le_card (Finset.sdiff_subset)
      _ ≤ [p].toFinset.card + (allCellsF size).card := Finset.card_union_le _ _
      _ ≤ size * size + 1 := by
        rw [card_allCellsF]
        have : ([p] : List (Nat × Nat)).toFinset.card ≤ 1 := by simp
        omega
  simp only [List.length_cons, List.length_nil]
  omega

/-! ### Cell access lemmas -/
theorem list_getD_set {A : Type} (l : List A) (i j : Nat) (a d : A) :
    (l.set i a).getD j d = if i = j ∧ i < l.length then a else l.getD j d := by
  rw [List.getD_eq_getElem?_getD, List.getElem?_set, List.getD_eq_getElem?_getD]
  by_cases hij : i = j
  · subst hij
    by_cases hi : i < l.length
    · rw [if_pos rfl, if_pos hi, if_pos ⟨rfl, hi⟩]
      rfl
    · rw [if_pos rfl, if_neg hi, if_neg (by tauto), List.getElem?_eq_none (by omega)]
  · rw [if_neg hij, if_neg (by tauto)]

theorem getCell_setCell (board : Board) (x y v p q : Nat) :
    getCell (setCell board x y v) p q =
      if p = x ∧ q = y ∧ x < board.length ∧ y < (board.getD x []).length then v
      else getCell board p q := by
  unfold getCell setCell
  rw [list_getD_set]
  by_cases hxp : x = p ∧ x < board.length
  · obtain ⟨rfl, hlen⟩ := hxp
    rw [if_pos ⟨rfl, hlen⟩, list_getD_set]
    by_cases hy : y = q ∧ y < (board.getD x []).length
    · obtain ⟨rfl, hylen⟩ := hy
      rw [if_pos ⟨rfl, hylen⟩, if_pos ⟨rfl, rfl, hlen, hylen⟩]
    · rw [if_neg hy, if_neg (by rintro ⟨-, rfl, -, h4⟩; exact hy ⟨rfl, h4⟩)]
  · rw [if_neg hxp, if_neg (by rintro ⟨rfl, -, h3, -⟩; exact hxp ⟨rfl, h3⟩)]

theorem getCell_setCell_or (board : Board) (x y v p q : Nat) :
    getCell (setCell board x y v) p q = getCell board p q ∨
      getCell (setCell board x y v) p q = v := by
  rw [getCell_setCell]
  split_ifs
  · exact Or.inr rfl
  · exact Or.inl rfl

theorem getCell_setCell_ne (board : Board) (x y v p q : Nat) (h : ¬(p = x ∧ q = y)) :
    getCell (setCell board x y v) p q = getCell board p q := by
  rw [getCell_setCell, if_neg (by tauto)]

theorem getCell_setCell_self (board : Board) (x y v : Nat) (hx : x < board.length)
    (hsq : SquareBoard board) (hy : y < board.length) :
    getCell (setCell board x y v) x y = v := by
  have hrow : (board.getD x []).length = board.length := by
    rw [List.getD_eq_getElem?_getD, List.getElem?_eq_getElem hx]
    exact hsq _ (List.getElem_mem hx)
  rw [getCell_setCell, if_pos ⟨rfl, rfl, hx, by omega⟩]

theorem squareBoard_setCell {board : Board} (h : SquareBoard board) (x y v : Nat) :
    SquareBoard (setCell board x y v) := by
  unfold setCell
  by_cases hx : x < board.length
  · intro row hrow
    rw [List.length_set]
    rcases List.mem_or_eq_of_mem_set hrow with hmem | rfl
    · exact h row hmem
    · rw [List.length_set, List.getD_eq_getElem?_getD, List.getElem?_eq_getElem hx]
      exact h _ (List.getElem_mem hx)
  · rw [List.set_eq_of_length_le (by omega)]
    exact h

/-! ### Flood-fill lemmas -/
theorem addLibs_mono (board : Board) (ns : List (Nat × Nat)) :
    ∀ libs x, x ∈ libs → x ∈ addLibs board ns libs := by
  induction ns with
  | nil => intro libs x hx; exact hx
  | cons n rest ih =>
    intro libs x hx
    show x ∈ addLibs board rest
      (if getCell board n.1 n.2 = EMPTY ∧ n ∉ libs then libs ++ [n] else libs)
    apply ih
    split_ifs
    · exact List.mem_append_left _ hx
    · exact hx

theorem mem_addLibs (board : Board) (ns : List (Nat × Nat)) :
    ∀ libs q, q ∈ ns → getCell board q.1 q.2 = EMPTY → q ∈ addLibs board ns libs := by
  induction ns with
  | nil => intro libs q hq _; exact absurd hq (List.not_mem_nil q)
  | cons n rest ih =>
    intro libs q hq hempty
    rcases List.mem_cons.mp hq with rfl | hq2
    · show q ∈ addLibs board rest
        (if getCell board q.1 q.2 = EMPTY ∧ q ∉ libs then libs ++ [q] else libs)
      apply addLibs_mono
      by_cases hmem : q ∈ libs
      · split_ifs with h
        · exact List.mem_append_left _ hmem
        · exact hmem
      · rw [if_pos ⟨hempty, hmem⟩]
        exact List.mem_append_right _ (List.mem_singleton_self q)
    · show q ∈ addLibs board rest
        (if getCell board n.1 n.2 = EMPTY ∧ n ∉ libs then libs ++ [n] else libs)
      exact ih _ q hq2 hempty

theorem floodLoop_stones_mono (board : Board) (color : Nat) :
    ∀ fuel stack stones libs x, x ∈ stones →
      x ∈ (floodLoop board color fuel stack stones libs).1 := by
  intro fuel
  induction fuel with
  | zero =>
    intro stack stones libs x hx
    cases stack <;> simp only [floodLoop] <;> exact hx
  | succ fuel ih =>
    intro stack stones libs x hx
    cases stack with
    | nil => simp only [floodLoop]; exact hx
    | cons p rest =>
      simp only [floodLoop]
      by_cases hp : p ∈ stones
      · rw [if_pos hp]
        exact ih _ _ _ x hx
      · rw [if_neg hp]
        exact ih _ _ _ x (List.mem_append_left _ hx)

theorem floodLoop_libs_mono (board : Board) (color : Nat) :
    ∀ fuel stack stones libs x, x ∈ libs →
      x ∈ (floodLoop board color fuel stack stones libs).2 := by
  intro fuel
  induction fuel with
  | zero =>
    intro stack stones libs x hx
    cases stack <;> simp only [floodLoop] <;> exact hx
  | succ fuel ih =>
    intro stack stones libs x hx
    cases stack with
    | nil => simp only [floodLoop]; exact hx
    | cons p rest =>
      simp only [floodLoop]
      by_cases hp : p ∈ stones
      · rw [if_pos hp]
        exact ih _ _ _ x hx
      · rw [if_neg hp]
        exact ih _ _ _ x (addLibs_mono _ _ _ x hx)

theorem floodLoop_cons_step (board : Board) (color : Nat) (fuel : Nat) (p : Nat × Nat)
    (rest stones libs : List (Nat × Nat)) (hp : p ∉ stones) :
    floodLoop board color (fuel + 1) (p :: rest) stones libs =
      floodLoop board color fuel
        (((neighbors board.length p.1 p.2).filter
          (fun q => decide (getCell board q.1 q.2 = color ∧ q ∉ stones ++ [p]))).reverse ++ rest)
        (stones ++ [p])
        (addLibs board (neighbors board.length p.1 p.2) libs) := by
  simp only [floodLoop]
  rw [if_neg hp]

theorem floodFuel_pos (size : Nat) : 0 < floodFuel size := by
  unfold floodFuel; omega

theorem floodGroup_start_mem (board : Board) (r c : Nat) :
    (r, c) ∈ (floodGroup board r c).stones := by
  unfold floodGroup
  obtain ⟨f, hf⟩ := Nat.exists_eq_add_of_lt (floodFuel_pos board.length)
  simp only [hf, Nat.zero_add]
  rw [floodLoop_cons_step _ _ _ _ _ _ _ (List.not_mem_nil _)]
  exact floodLoop_stones_mono _ _ _ _ _ _ _
    (List.mem_append_right _ (List.mem_singleton_self _))

theorem floodGroup_libs_sup (board : Board) (r c : Nat) (q : Nat × Nat)
    (hq : q ∈ neighbors board.length r c) (hempty : getCell board q.1 q.2 = EMPTY) :
    q ∈ (floodGroup board r c).liberties := by
  unfold floodGroup
  obtain ⟨f, hf⟩ := Nat.exists_eq_add_of_lt (floodFuel_pos board.length)
  simp only [hf, Nat.zero_add]
  rw [floodLoop_cons_step _ _ _ _ _ _ _ (List.not_mem_nil _)]
  exact floodLoop_libs_mono _ _ _ _ _ _ _ (mem_addLibs _ _ _ _ hq hempty)

theorem floodLoop_stones_val (board : Board) (color : Nat) :
    ∀ fuel stack stones libs,
      (∀ x ∈ stack, getCell board x.1 x.2 = color) →
      (∀ x ∈ stones, getCell board x.1 x.2 = color) →
      ∀ x ∈ (floodLoop board color fuel stack stones libs).1,
        getCell board x.1 x.2 = color := by
  intro fuel
  induction fuel with
  | zero =>
    intro stack stones libs _ hstones x hx
    cases stack <;> simp only [floodLoop] at hx <;> exact hstones x hx
  | succ fuel ih =>
    intro stack stones libs hstack hstones x hx
    cases stack with
    | nil => simp only [floodLoop] at hx; exact hstones x hx
    | cons p rest =>
      simp only [floodLoop] at hx
      by_cases hp : p ∈ stones
      · rw [if_pos hp] at hx
        exact ih _ _ _ (fun y hy => hstack y (List.mem_cons_of_mem _ hy)) hstones x hx
      · rw [if_neg hp] at hx
        refine ih _ _ _ ?_ ?_ x hx
        · intro y hy
          rcases List.mem_append.mp hy with hy1 | hy2
          · rw [List.mem_reverse, List.mem_filter] at hy1
            have := hy1.2
            rw [decide_eq_true_eq] at this
            exact this.1
          · exact hstack y (List.mem_cons_of_mem _ hy2)
        · intro y hy
          rcases List.mem_append.mp hy with hy1 | hy2
          · exact hstones y hy1
          · rw [List.mem_singleton] at hy2
            subst hy2
            exact hstack y (List.mem_cons_self _ _)

theorem floodGroup_stones_val (board : Board) (r c : Nat) :
    ∀ x ∈ (floodGroup board r c).stones, getCell board x.1 x.2 = getCell board r c := by
  intro x hx
  unfold floodGroup at hx
  refine floodLoop_stones_val board _ _ _ _ _ ?_ ?_ x hx
  · intro y hy
    rw [List.mem_singleton] at hy
    subst hy
    rfl
  · intro y hy
    exact absurd hy (List.not_mem_nil y)

/-! ### Capture-resolution lemmas -/
theorem removeStones_length : ∀ (stones : List (Nat × Nat)) (b : Board) (cap : Nat),
    (removeStones stones b cap).1.length = b.length := by
  intro stones
  induction stones with
  | nil => intro b cap; rfl
  | cons s rest ih =>
    intro b cap
    show (removeStones rest (setCell b s.1 s.2 EMPTY) (cap + 1)).1.length = b.length
    rw [ih, length_setCell]

theorem squareBoard_removeStones : ∀ (stones : List (Nat × Nat)) (b : Board) (cap : Nat),
    SquareBoard b → SquareBoard (removeStones stones b cap).1 := by
  intro stones
  induction stones with
  | nil => intro b cap h; exact h
  | cons s rest ih =>
    intro b cap h
    exact ih _ _ (squareBoard_setCell h _ _ _)

theorem removeStones_empty_mono : ∀ (stones : List (Nat × Nat)) (b : Board) (cap p q : Nat),
    getCell b p q = EMPTY → getCell (removeStones stones b cap).1 p q = EMPTY := by
  intro stones
  induction stones with
  | nil => intro b cap p q h; exact h
  | cons s rest ih =>
    intro b cap p q h
    show getCell (removeStones rest (setCell b s.1 s.2 EMPTY) (cap + 1)).1 p q = EMPTY
    apply ih
    rcases getCell_setCell_or b s.1 s.2 EMPTY p q with h2 | h2
    · rw [h2]; exact h
    · exact h2

theorem removeStones_ne : ∀ (stones : List (Nat × Nat)) (b : Board) (cap : Nat)
    (p q : Nat), (∀ s ∈ stones, ¬(p = s.1 ∧ q = s.2)) →
    getCell (removeStones stones b cap).1 p q = getCell b p q := by
  intro stones
  induction stones with
  | nil => intro b cap p q _; rfl
  | cons s rest ih =>
    intro b cap p q h
    show getCell (removeStones rest (setCell b s.1 s.2 EMPTY) (cap + 1)).1 p q = getCell b p q
    rw [ih _ _ _ _ (fun t ht => h t (List.mem_cons_of_mem _ ht))]
    exact getCell_setCell_ne _ _ _ _ _ _ (h s (List.mem_cons_self _ _))

theorem removeStones_mem_empty : ∀ (stones : List (Nat × Nat)) (b : Board) (cap : Nat)
    (p : Nat × Nat), SquareBoard b → p.1 < b.length → p.2 < b.length → p ∈ stones →
    getCell (removeStones stones b cap).1 p.1 p.2 = EMPTY := by
  intro stones
  induction stones with
  | nil => intro b cap p _ _ _ h; exact absurd h (List.not_mem_nil p)
  | cons s rest ih =>
    intro b cap p hsq hp1 hp2 hmem
    show getCell (removeStones rest (setCell b s.1 s.2 EMPTY) (cap + 1)).1 p.1 p.2 = EMPTY
    rcases List.mem_cons.mp hmem with rfl | hmem2
    · apply removeStones_empty_mono
      exact getCell_setCell_self b p.1 p.2 EMPTY hp1 hsq hp2
    · refine ih _ _ _ (squareBoard_setCell hsq _ _ _) ?_ ?_ hmem2 <;>
        rw [length_setCell] <;> assumption

theorem captureFold_length (color : Nat) : ∀ (ns : List (Nat × Nat)) (b : Board)
    (cap : Nat) (seen : Finset (Nat × Nat)),
    (captureFold color ns b cap seen).1.length = b.length := by
  intro ns
  induction ns with
  | nil => intro b cap seen; rfl
  | cons n rest ih =>
    intro b cap seen
    simp only [captureFold]
    split_ifs
    · exact ih _ _ _
    · rw [ih _ _ _, removeStones_length]
    · exact ih _ _ _
    · exact ih _ _ _

theorem squareBoard_captureFold (color : Nat) : ∀ (ns : List (Nat × Nat)) (b : Board)
    (cap : Nat) (seen : Finset (Nat × Nat)), SquareBoard b →
    SquareBoard (captureFold color ns b cap seen).1 := by
  intro ns
  induction ns with
  | nil => intro b cap seen h; exact h
  | cons n rest ih =>
    intro b cap seen h
    simp only [captureFold]
    split_ifs
    · exact ih _ _ _ h
    · exact ih _ _ _ (squareBoard_removeStones _ _ _ h)
    · exact ih _ _ _ h
    · exact ih _ _ _ h

theorem captureFold_empty_mono (color : Nat) : ∀ (ns : List (Nat × Nat)) (b : Board)
    (cap : Nat) (seen : Finset (Nat × Nat)) (p q : Nat), getCell b p q = EMPTY →
    getCell (captureFold color ns b cap seen).1 p q = EMPTY := by
  intro ns
  induction ns with
  | nil => intro b cap seen p q h; exact h
  | cons n rest ih =>
    intro b cap seen p q h
    simp only [captureFold]
    split_ifs
    · exact ih _ _ _ _ _ h
    · exact ih _ _ _ _ _ (removeStones_empty_mono _ _ _ _ _ h)
    · exact ih _ _ _ _ _ h
    · exact ih _ _ _ _ _ h

theorem captureFold_keep_color (color : Nat) (hne : OTHER color ≠ color) :
    ∀ (ns : List (Nat × Nat)) (b : Board) (cap : Nat) (seen : Finset (Nat × Nat))
      (p : Nat × Nat), getCell b p.1 p.2 = color →
      getCell (captureFold color ns b cap seen).1 p.1 p.2 = color := by
  intro ns
  induction ns with
  | nil => intro b cap seen p h; exact h
  | cons n rest ih =>
    intro b cap seen p h
    simp only [captureFold]
    split_ifs with h1 h2 h3
    · exact ih _ _ _ _ h
    · refine ih _ _ _ _ ?_
      rw [removeStones_ne]
      · exact h
      · intro s hs hps
        have hval := floodGroup_stones_val b n.1 n.2 s hs
        rw [h1] at hval
        apply hne
        rw [← hval, ← h]
        obtain ⟨p1, p2⟩ := p
        obtain ⟨hp1, hp2⟩ := hps
        simp only at hp1 hp2
        rw [hp1, hp2]
    · exact ih _ _ _ _ h
    · exact ih _ _ _ _ h

theorem captureFold_pos_empty (color : Nat) :
    ∀ (ns : List (Nat × Nat)) (b : Board) (cap : Nat) (seen : Finset (Nat × Nat)),
      SquareBoard b → (∀ n ∈ ns, n.1 < b.length ∧ n.2 < b.length) →
      cap < (captureFold color ns b cap seen).2 →
      ∃ n ∈ ns, getCell (captureFold color ns b cap seen).1 n.1 n.2 = EMPTY := by
  intro ns
  induction ns with
  | nil => intro b cap seen _ _ h; exact absurd h (by simp [captureFold])
  | cons n rest ih =>
    intro b cap seen hsq hbd hcap
    simp only [captureFold] at hcap ⊢
    split_ifs at hcap ⊢ with h1 h2 h3
    · obtain ⟨m, hm, hv⟩ := ih _ _ _ hsq (fun x hx => hbd x (List.mem_cons_of_mem _ hx)) hcap
      exact ⟨m, List.mem_cons_of_mem _ hm, hv⟩
    · refine ⟨n, List.mem_cons_self _ _, ?_⟩
      apply captureFold_empty_mono
      apply removeStones_mem_empty _ _ _ _ hsq (hbd n (List.mem_cons_self _ _)).1
        (hbd n (List.mem_cons_self _ _)).2
      exact floodGroup_start_mem b n.1 n.2
    · obtain ⟨m, hm, hv⟩ := ih _ _ _ hsq (fun x hx => hbd x (List.mem_cons_of_mem _ hx)) hcap
      exact ⟨m, List.mem_cons_of_mem _ hm, hv⟩
    · obtain ⟨m, hm, hv⟩ := ih _ _ _ hsq (fun x hx => hbd x (List.mem_cons_of_mem _ hx)) hcap
      exact ⟨m, List.mem_cons_of_mem _ hm, hv⟩

/-! ### `placeAndCapture` facts -/
theorem afterCaptures_length (board : Board) (r c color : Nat) :
    (afterCaptures board r c color).1.length = board.length := by
  unfold afterCaptures
  rw [captureFold_length, length_setCell, cloneBoard_eq]

theorem placeAndCapture_eq (board : Board) (r c color : Nat)
    (hempty : getCell board r c = EMPTY) :
    placeAndCapture board r c color =
      (if (floodGroup (afterCaptures board r c color).1 r c).liberties = [] then none
       else some ⟨(afterCaptures board r c color).1, (afterCaptures board r c color).2⟩) := by
  simp only [placeAndCapture, hempty, ne_eq, not_true_eq_false, if_false]

theorem OTHER_ne {color : Nat} (h : color = BLACK ∨ color = WHITE) : OTHER color ≠ color := by
  rcases h with rfl | rfl <;> decide

theorem afterCaptures_center (board : Board) (r c color : Nat) (hsq : SquareBoard board)
    (hr : r < board.length) (hc : c < board.length) (hcol : color = BLACK ∨ color = WHITE) :
    getCell (afterCaptures board r c color).1 r c = color := by
  unfold afterCaptures
  exact captureFold_keep_color color (OTHER_ne hcol) _ _ _ _ (r, c)
    (by rw [cloneBoard_eq]; exact getCell_setCell_self board r c color hr hsq hc)

theorem placeAndCapture_some_eq {board : Board} {r c color : Nat} {res : MoveRes}
    (h : placeAndCapture board r c color = some res) :
    res = ⟨(afterCaptures board r c color).1, (afterCaptures board r c color).2⟩ ∧
    (floodGroup (afterCaptures board r c color).1 r c).liberties ≠ [] := by
  have hempty : getCell board r c = EMPTY := by
    by_contra hocc
    rw [placeAndCapture, if_pos hocc] at h
    simp at h
  rw [placeAndCapture_eq board r c color hempty] at h
  split_ifs at h with hlib
  rw [Option.some_inj] at h
  exact ⟨h.symm, hlib⟩

/-- **C2 (amended).**  Whenever `placeAndCapture` succeeds, the group
containing the just-placed stone in the returned board has at least one
liberty (the self-capture check at lines 87-89 guarantees exactly this). -/
theorem C2_placed_group_has_liberty (board : Board) (r c color : Nat) (res : MoveRes)
    (h : placeAndCapture board r c color = some res) :
    (floodGroup res.board r c).liberties ≠ [] := by
  obtain ⟨rfl, hlib⟩ := placeAndCapture_some_eq h
  exact hlib

/-- Witness for `C2_placed_group_has_liberty` at a concrete input. -/
theorem C2_witness :
    placeAndCapture [[EMPTY, EMPTY], [EMPTY, EMPTY]] 0 0 BLACK =
      some ⟨[[BLACK, EMPTY], [EMPTY, EMPTY]], 0⟩ ∧
    (floodGroup [[BLACK, EMPTY], [EMPTY, EMPTY]] 0 0).liberties ≠ [] := by
  refine ⟨by decide, ?_⟩
  exact C2_placed_group_has_liberty [[EMPTY, EMPTY], [EMPTY, EMPTY]] 0 0 BLACK
    ⟨[[BLACK, EMPTY], [EMPTY, EMPTY]], 0⟩ (by decide)

/-- **C2 counterexample.**  On the board `[[B,W,.],[W,.,.],[.,.,.]]` the
black stone at (0,0) already has zero liberties; BLACK legally plays the
unrelated cell (2,2), the move succeeds, and the returned board still
contains the zero-liberty black group at (0,0): only the placed stone's own
group is ever checked. -/
theorem C2_counterexample : ¬ placedBoardHasNoDeadMoverGroup := by
  intro h
  have h2 := h [[BLACK, WHITE, EMPTY], [WHITE, EMPTY, EMPTY], [EMPTY, EMPTY, EMPTY]] 2 2 BLACK
    ⟨[[BLACK, WHITE, EMPTY], [WHITE, EMPTY, EMPTY], [EMPTY, EMPTY, BLACK]], 0⟩ (by decide)
    0 0 (by decide)
  exact h2 (by decide)

/-- **C1.**  For every board, color and empty target cell: the capture scan
over adjacent opponent groups runs first and yields `afterCaptures`; a
placement whose capture count is positive is never rejected as suicide
(the captured neighbour has become a liberty of the placed stone); and if,
after those captures, the placed stone's group has zero liberties, the
operation returns `none` (ILLEGAL) — the caller's board is untouched, the
function being pure and the clone never escaping.  A successful result is
exactly the post-capture board and capture count. -/
theorem C1_captures_resolve_before_suicide_check (board : Board) (r c color : Nat)
    (hsq : SquareBoard board) (hr : r < board.length) (hc : c < board.length)
    (hcol : color = BLACK ∨ color = WHITE) (hempty : getCell board r c = EMPTY) :
    (0 < (afterCaptures board r c color).2 →
      (placeAndCapture board r c color).isSome = true) ∧
    ((floodGroup (afterCaptures board r c color).1 r c).liberties = [] →
      placeAndCapture board r c color = none) ∧
    (∀ res, placeAndCapture board r c color = some res →
      res = ⟨(afterCaptures board r c color).1, (afterCaptures board r c color).2⟩) := by
  refine ⟨?_, ?_, fun res h => (placeAndCapture_some_eq h).1⟩
  · intro hcap
    have hnewsq : SquareBoard (setCell (cloneBoard board) r c color) := by
      rw [cloneBoard_eq]
      exact squareBoard_setCell hsq _ _ _
    have hlen : (setCell (cloneBoard board) r c color).length = board.length := by
      rw [cloneBoard_eq, length_setCell]
    obtain ⟨n, hn, hv⟩ := captureFold_pos_empty color (neighbors board.length r c)
      (setCell (cloneBoard board) r c color) 0 ∅ hnewsq
      (fun x hx => by rw [hlen]; exact ⟨(mem_neighbors_bounds hx).1, (mem_neighbors_bounds hx).2⟩)
      (by exact hcap)
    have hvA : getCell (afterCaptures board r c color).1 n.1 n.2 = EMPTY := hv
    have hnbr : n ∈ neighbors (afterCaptures board r c color).1.length r c := by
      rw [afterCaptures_length]
      exact hn
    have hmem := floodGroup_libs_sup (afterCaptures board r c color).1 r c n hnbr hvA
    rw [placeAndCapture_eq board r c color hempty,
      if_neg (List.ne_nil_of_mem hmem)]
    rfl
  · intro hlib
    rw [placeAndCapture_eq board r c color hempty, if_pos hlib]

/-- Witness for `C1_captures_resolve_before_suicide_check`: on
`[[.,W],[W,B]]` BLACK plays (0,0), captures both white stones, and the
placement is accepted although it would be suicide without the capture. -/
theorem C1_witness :
    0 < (afterCaptures [[EMPTY, WHITE], [WHITE, BLACK]] 0 0 BLACK).2 ∧
    (placeAndCapture [[EMPTY, WHITE], [WHITE, BLACK]] 0 0 BLACK).isSome = true := by
  refine ⟨by decide, ?_⟩
  exact (C1_captures_resolve_before_suicide_check [[EMPTY, WHITE], [WHITE, BLACK]] 0 0 BLACK
    (by decide) (by decide) (by decide) (Or.inl rfl) (by decide)).1 (by decide)

/-! ### `legalMoves` lemmas -/
theorem mem_cellsList {size : Nat} {p : Nat × Nat} :
    p ∈ cellsList size ↔ p.1 < size ∧ p.2 < size := by
  obtain ⟨a, b⟩ := p
  simp only [cellsList, List.mem_flatMap, List.mem_map, List.mem_range, Prod.mk.injEq]
  constructor
  · rintro ⟨r, hr, c, hc, rfl, rfl⟩
    exact ⟨hr, hc⟩
  · rintro ⟨ha, hb⟩
    exact ⟨a, ha, b, hb, rfl, rfl⟩

theorem placeAndCapture_some_empty {board : Board} {r c color : Nat} {res : MoveRes}
    (h : placeAndCapture board r c color = some res) : getCell board r c = EMPTY := by
  by_contra hocc
  rw [placeAndCapture, if_pos hocc] at h
  simp at h

theorem placeMoveAt_pass {board : Board} {color : Nat} {koKeyLast : Option String}
    {p : Nat × Nat} {m : Move} (h : placeMoveAt board color koKeyLast p = some m) :
    m.pass = false := by
  unfold placeMoveAt at h
  split_ifs at h
  rcases hpc : placeAndCapture board p.1 p.2 color with _ | res <;> rw [hpc] at h
  · simp at h
  · match koKeyLast with
    | none =>
      rw [Option.some_inj] at h
      rw [← h]
    | some k =>
      dsimp only at h
      split_ifs at h
      rw [Option.some_inj] at h
      rw [← h]

theorem placeMoveAt_coords {board : Board} {color : Nat} {koKeyLast : Option String}
    {p : Nat × Nat} {m : Move} (h : placeMoveAt board color koKeyLast p = some m) :
    m = ⟨p.1, p.2, m.res, false⟩ ∧ placeAndCapture board p.1 p.2 color = some m.res ∧
      ∀ k, koKeyLast = some k → boardKey m.res.board ≠ k := by
  unfold placeMoveAt at h
  split_ifs at h
  rcases hpc : placeAndCapture board p.1 p.2 color with _ | res <;> rw [hpc] at h
  · simp at h
  · match koKeyLast with
    | none =>
      rw [Option.some_inj] at h
      subst h
      exact ⟨rfl, rfl, fun k hk => by simp at hk⟩
    | some k =>
      dsimp only at h
      split_ifs at h with hkey
      rw [Option.some_inj] at h
      subst h
      refine ⟨rfl, rfl, ?_⟩
      intro k2 hk2
      rw [Option.some_inj] at hk2
      show boardKey res.board ≠ k2
      rw [← hk2]
      exact hkey

theorem placeMoveAt_of_legal {board : Board} {color : Nat} {k : String}
    {p : Nat × Nat} {res : MoveRes} (hpc : placeAndCapture board p.1 p.2 color = some res)
    (hkey : boardKey res.board ≠ k) :
    placeMoveAt board color (some k) p = some ⟨p.1, p.2, res, false⟩ := by
  unfold placeMoveAt
  rw [if_neg (fun hocc => hocc (placeAndCapture_some_empty hpc)), hpc]
  dsimp only
  rw [if_neg hkey]

/-- **C4.**  For every board, color and previous key (`null` included),
`legalMoves` contains exactly one pass entry; in particular the legal-move
set is never empty. -/
theorem C4_exactly_one_pass (board : Board) (color : Nat) (koKeyLast : Option String) :
    ((legalMoves board color koKeyLast).filter (fun m => m.pass)).length = 1 ∧
    legalMoves board color koKeyLast ≠ [] := by
  constructor
  · unfold legalMoves
    rw [List.filter_append]
    have h1 : (List.filterMap (placeMoveAt board color koKeyLast)
        (cellsList board.length)).filter (fun m => m.pass) = [] := by
      rw [List.filter_eq_nil_iff]
      intro m hm
      rw [List.mem_filterMap] at hm
      obtain ⟨p, _, hsome⟩ := hm
      rw [placeMoveAt_pass hsome]
      simp
    rw [h1]
    rfl
  · simp [legalMoves]

/-- **C10.**  The pass entry of `legalMoves` is always its last element,
has capture count 0 and a resulting board equal in content to the input
board; and the playout simulator's two-pass detection (`replyIsPass`,
line 201) — which reads the last element — succeeds exactly when pass is
the only legal move. -/
theorem C10_pass_entry_is_last (board : Board) (color : Nat) (koKeyLast : Option String) :
    (legalMoves board color koKeyLast).getLast? = some (passMove board) ∧
    (passMove board).res.captured = 0 ∧
    (passMove board).res.board = board ∧
    (replyIsPass (legalMoves board color koKeyLast) = true ↔
      legalMoves board color koKeyLast = [passMove board]) := by
  have hlast : (legalMoves board color koKeyLast).getLast? = some (passMove board) := by
    unfold legalMoves
    rw [List.getLast?_append]
    rfl
  refine ⟨hlast, rfl, cloneBoard_eq board, ?_, ?_⟩
  · intro h
    unfold replyIsPass at h
    simp only [Bool.and_eq_true, decide_eq_true_eq, beq_iff_eq] at h
    obtain ⟨⟨-, -⟩, hlen⟩ := h
    obtain ⟨a, ha⟩ := List.length_eq_one.mp hlen
    rw [ha] at hlast ⊢
    rw [List.getLast?_singleton, Option.some_inj] at hlast
    rw [hlast]
  · intro h
    rw [h]
    unfold replyIsPass
    simp [passMove]

/-- **C3 counterexample.**  The pass entry is appended unconditionally and
its resulting board is the input board; with `previousKey = boardKey board`
— exactly the key the host stores after a pass (line 367) — the pass
element's resulting key equals the previous key.  Exhibited on the 1×1
board, where `legalMoves` is `[pass]`. -/
theorem C3_counterexample : ¬ noElementRecreatesPreviousKey := by
  intro h
  exact h [[EMPTY]] BLACK (boardKey [[EMPTY]]) (passMove [[EMPTY]])
    (by decide) (by decide)

/-- **C3 (amended).**  No placement (non-pass) element of `legalMoves`
recreates the previous position key; and any legal placement whose
resulting key differs from the previous key is (re-)included for that
previous key, so a ko-excluded move becomes legal again after an
intervening different move. -/
theorem C3_simple_ko_excludes_placements :
    (∀ (board : Board) (color : Nat) (k : String) (m : Move),
      m ∈ legalMoves board color (some k) → m.pass = false →
      boardKey m.res.board ≠ k) ∧
    (∀ (board : Board) (color : Nat) (k2 : String) (r c : Nat) (res : MoveRes),
      r < board.length → c < board.length →
      placeAndCapture board r c color = some res → boardKey res.board ≠ k2 →
      (⟨r, c, res, false⟩ : Move) ∈ legalMoves board color (some k2)) := by
  constructor
  · intro board color k m hm hpass
    unfold legalMoves at hm
    rcases List.mem_append.mp hm with hm1 | hm2
    · rw [List.mem_filterMap] at hm1
      obtain ⟨p, -, hsome⟩ := hm1
      exact (placeMoveAt_coords hsome).2.2 k rfl
    · rw [List.mem_singleton] at hm2
      rw [hm2] at hpass
      simp [passMove] at hpass
  · intro board color k2 r c res hr hc hpc hkey
    unfold legalMoves
    apply List.mem_append_left
    rw [List.mem_filterMap]
    exact ⟨(r, c), mem_cellsList.mpr ⟨hr, hc⟩, placeMoveAt_of_legal hpc hkey⟩

/-- Witness for `C3_simple_ko_excludes_placements` at concrete inputs:
on the empty 2×2 board the placement at (0,0) is legal for any previous
key different from its resulting key, and the ko-guard concretely rejects
nothing else. -/
theorem C3_witness :
    (⟨0, 0, ⟨[[BLACK, EMPTY], [EMPTY, EMPTY]], 0⟩, false⟩ : Move) ∈
      legalMoves [[EMPTY, EMPTY], [EMPTY, EMPTY]] BLACK (some "ko") :=
  C3_simple_ko_excludes_placements.2 [[EMPTY, EMPTY], [EMPTY, EMPTY]] BLACK "ko" 0 0
    ⟨[[BLACK, EMPTY], [EMPTY, EMPTY]], 0⟩ (by decide) (by decide) (by decide) (by decide)

/-! ### `JNum` faithfulness: on positive denominators the fraction
operations agree with the rational value, so `JNum` is the exact-rational
model of JS numbers. -/
theorem JNum.toRat_add {x y : JNum} (hx : 0 < x.den) (hy : 0 < y.den) :
    (x + y).toRat = x.toRat + y.toRat := by
  show (JNum.add x y).toRat = _
  unfold JNum.add JNum.toRat
  have hx2 : ((x.den : ℚ)) ≠ 0 := by positivity
  have hy2 : ((y.den : ℚ)) ≠ 0 := by positivity
  push_cast
  field_simp

theorem JNum.toRat_mul {x y : JNum} (hx : 0 < x.den) (hy : 0 < y.den) :
    (x * y).toRat = x.toRat * y.toRat := by
  show (JNum.mul x y).toRat = _
  unfold JNum.mul JNum.toRat
  have hx2 : ((x.den : ℚ)) ≠ 0 := by positivity
  have hy2 : ((y.den : ℚ)) ≠ 0 := by positivity
  push_cast
  field_simp

theorem JNum.toRat_neg (x : JNum) : (-x).toRat = -(x.toRat) := by
  show (JNum.neg x).toRat = _
  unfold JNum.neg JNum.toRat
  push_cast
  ring

theorem JNum.toRat_sub {x y : JNum} (hx : 0 < x.den) (hy : 0 < y.den) :
    (x - y).toRat = x.toRat - y.toRat := by
  show (JNum.add x (JNum.neg y)).toRat = _
  unfold JNum.add JNum.neg JNum.toRat
  have hx2 : ((x.den : ℚ)) ≠ 0 := by positivity
  have hy2 : ((y.den : ℚ)) ≠ 0 := by positivity
  push_cast
  field_simp
  ring

theorem JNum.toRat_div {x y : JNum} (hx : 0 < x.den) (hy : 0 < y.den)
    (hyn : y.num ≠ 0) : (x / y).toRat = x.toRat / y.toRat := by
  show (JNum.div x y).toRat = _
  unfold JNum.div JNum.toRat
  have hx2 : ((x.den : ℚ)) ≠ 0 := by positivity
  have hy2 : ((y.den : ℚ)) ≠ 0 := by positivity
  rcases lt_or_le y.num 0 with h | h
  · rw [if_neg (by omega)]
    have ht : (((-y.num).toNat : Int)) = -y.num := Int.toNat_of_nonneg (by omega)
    have htQ : (((-y.num).toNat : ℚ)) = -((y.num : ℚ)) := by exact_mod_cast ht
    have hyq : ((y.num : ℚ)) ≠ 0 := by exact_mod_cast hyn
    push_cast
    rw [htQ]
    field_simp
  · rw [if_pos h]
    have ht : ((y.num.toNat : Int)) = y.num := Int.toNat_of_nonneg h
    have htQ : ((y.num.toNat : ℚ)) = ((y.num : ℚ)) := by exact_mod_cast ht
    have hyq : ((y.num : ℚ)) ≠ 0 := by exact_mod_cast hyn
    push_cast
    rw [htQ]
    field_simp

theorem JNum.le_toRat {x y : JNum} (hx : 0 < x.den) (hy : 0 < y.den) :
    x ≤ y ↔ x.toRat ≤ y.toRat := by
  show JNum.ble x y = true ↔ _
  unfold JNum.ble JNum.toRat
  rw [decide_eq_true_eq, div_le_div_iff₀ (by positivity) (by positivity)]
  constructor <;> intro h <;> exact_mod_cast h

theorem JNum.lt_toRat {x y : JNum} (hx : 0 < x.den) (hy : 0 < y.den) :
    x < y ↔ x.toRat < y.toRat := by
  show JNum.blt x y = true ↔ _
  unfold JNum.blt JNum.toRat
  rw [decide_eq_true_eq, div_lt_div_iff₀ (by positivity) (by positivity)]
  constructor <;> intro h <;> exact_mod_cast h

theorem JNum.toRat_jmax {x y : JNum} (hx : 0 < x.den) (hy : 0 < y.den) :
    (JNum.jmax x y).toRat = max x.toRat y.toRat := by
  unfold JNum.jmax
  by_cases h : JNum.ble x y = true
  · rw [if_pos h, max_eq_right ((JNum.le_toRat hx hy).mp h)]
  · rw [if_neg h, max_eq_left]
    have h2 : ¬(x ≤ y) := h
    rw [JNum.le_toRat hx hy] at h2
    exact le_of_not_le h2

theorem JNum.toRat_ofNat (n : Nat) : (JNum.ofNat n).toRat = n := by
  unfold JNum.ofNat JNum.toRat
  push_cast
  ring

/-! ### Playout loop-shape theorems (C7, C8) -/
/-- **C7 (amended).**  The playout loop plays at most `plies` plies; it
never stops after a ply whose break test fails (a pass after which pass is
the opponent's only legal move), and whenever it stops with plies to
spare, the last ply played satisfies exactly that break test.  In
particular, two chosen passes in a row do not by themselves end the
playout. -/
theorem C7_playout_stop_discipline (hq : JNum → JNum → JNum) (o : PlayRand) :
    ∀ (plies : Nat) (board : Board) (ko : Option String) (turn t : Nat),
      ((playoutLoop hq o plies board ko turn t).2.length ≤ plies) ∧
      (∀ i, i + 1 < (playoutLoop hq o plies board ko turn t).2.length →
        ∀ m st, (playoutLoop hq o plies board ko turn t).2[i]? = some m →
          (statesFrom (board, ko, turn) (playoutLoop hq o plies board ko turn t).2)[i]? =
            some st →
          breakAfter st m = false) ∧
      ((playoutLoop hq o plies board ko turn t).2.length < plies →
        (playoutLoop hq o plies board ko turn t).2 ≠ [] ∧
        ∀ m st, (playoutLoop hq o plies board ko turn t).2.getLast? = some m →
          (statesFrom (board, ko, turn)
            (playoutLoop hq o plies board ko turn t).2).getLast? = some st →
          breakAfter st m = true) := by
  intro plies
  induction plies with
  | zero =>
    intro board ko turn t
    refine ⟨Nat.le_refl 0, ?_, ?_⟩
    · intro i hi
      simp only [playoutLoop, List.length_nil] at hi
      omega
    · intro h
      simp only [playoutLoop, List.length_nil] at h
      omega
  | succ n ih =>
    intro board ko turn t
    simp only [playoutLoop]
    by_cases hbr : ((playoutPick hq o board turn ko t).pass &&
        replyIsPass (legalMoves (playoutPick hq o board turn ko t).res.board (OTHER turn)
          (some (boardKey (playoutPick hq o board turn ko t).res.board)))) = true
    · rw [if_pos hbr]
      refine ⟨by simp only [List.length_cons, List.length_nil]; omega, ?_, ?_⟩
      · intro i hi
        simp only [List.length_cons, List.length_nil] at hi
        omega
      · intro _
        refine ⟨by simp, ?_⟩
        intro m st hm hst
        simp only [List.getLast?_singleton, Option.some_inj] at hm
        simp only [statesFrom, List.getLast?_singleton, Option.some_inj] at hst
        subst hm
        subst hst
        exact hbr
    · rw [if_neg hbr]
      obtain ⟨iha, ihb, ihc⟩ := ih (playoutPick hq o board turn ko t).res.board
        (some (boardKey (playoutPick hq o board turn ko t).res.board)) (OTHER turn) (t + 1)
      refine ⟨?_, ?_, ?_⟩
      · simp only [List.length_cons]
        omega
      · intro i hi m st hm hst
        simp only [List.length_cons] at hi
        match i with
        | 0 =>
          simp only [List.getElem?_cons_zero, Option.some_inj] at hm
          simp only [statesFrom, List.getElem?_cons_zero, Option.some_inj] at hst
          subst hm
          subst hst
          rw [Bool.not_eq_true] at hbr
          exact hbr
        | i + 1 =>
          simp only [List.getElem?_cons_succ] at hm
          simp only [statesFrom, List.getElem?_cons_succ] at hst
          exact ihb i (by omega) m st hm hst
      · intro hlen
        simp only [List.length_cons] at hlen
        refine ⟨by simp, ?_⟩
        intro m st hm hst
        rcases hE : (playoutLoop hq o n (playoutPick hq o board turn ko t).res.board
            (some (boardKey (playoutPick hq o board turn ko t).res.board)) (OTHER turn)
            (t + 1)).2 with _ | ⟨x, xs⟩
        · refine absurd hE (ihc ?_).1
          rw [hE] at hlen
          simp only [List.length_nil] at hlen
          rw [hE, List.length_nil]
          omega
        · rw [hE] at hm hst
          rw [List.getLast?_cons_cons] at hm
          have hstep : statesFrom (board, ko, turn)
              ((playoutPick hq o board turn ko t) :: x :: xs) =
              stepState (board, ko, turn) (playoutPick hq o board turn ko t) ::
                (stepState (stepState (board, ko, turn) (playoutPick hq o board turn ko t)) x ::
                  statesFrom (stepState (stepState (board, ko, turn)
                    (playoutPick hq o board turn ko t)) x) xs) := rfl
          rw [hstep, List.getLast?_cons_cons] at hst
          refine (ihc (by omega)).2 m st ?_ ?_
          · rw [hE]
            exact hm
          · rw [hE]
            show (stepState (stepState (board, ko, turn)
                (playoutPick hq o board turn ko t)) x ::
              statesFrom (stepState (stepState (board, ko, turn)
                (playoutPick hq o board turn ko t)) x) xs).getLast? = some st
            exact hst

/-- Witness for `C7_playout_stop_discipline`: on the 1×1 board the first
ply is a forced pass and pass is also the opponent's only answer, so the
playout stops with plies to spare and the last ply satisfies the break
test. -/
theorem C7_witness :
    (playoutLoop hypotJ prZero 5 [[EMPTY]] none BLACK 0).2 ≠ [] ∧
    breakAfter ([[EMPTY]], some "0", WHITE) (passMove [[EMPTY]]) = true := by
  have h := (C7_playout_stop_discipline hypotJ prZero 5 [[EMPTY]] none BLACK 0).2.2 (by decide)
  exact ⟨h.1, h.2 (passMove [[EMPTY]]) ([[EMPTY]], some "0", WHITE) (by decide) (by decide)⟩

/-- **C7 counterexample.**  On the empty 2×2 board with zero jitter and
sampled index 4 (the pass entry of the 5-element sorted move list) on the
first two plies, both players pass consecutively and yet a third ply is
played: the loop does not stop on two consecutive passes.  It stops only
when, after a pass, pass is the opponent's sole legal move
(`C7_playout_stop_discipline`). -/
theorem C7_counterexample : ¬ playoutStopsOnTwoPasses := by
  intro h
  have h2 := h hypotJ prCx 3 [[EMPTY, EMPTY], [EMPTY, EMPTY]] BLACK 0
    (passMove [[EMPTY, EMPTY], [EMPTY, EMPTY]]) (passMove [[EMPTY, EMPTY], [EMPTY, EMPTY]])
    (by decide) (by decide) (by decide) (by decide)
  exact absurd h2 (by decide)

/-- **C8.**  At the end of every playout, the color with the larger area
is declared the winner, and an exact tie goes to WHITE (line 206). -/
theorem C8_higher_area_wins_tie_white (hq : JNum → JNum → JNum) (o : PlayRand)
    (startBoard : Board) (colorToPlay plies : Nat) :
    ((chineseScore (playoutLoop hq o plies (cloneBoard startBoard) none
        colorToPlay 0).1).white <
      (chineseScore (playoutLoop hq o plies (cloneBoard startBoard) none
        colorToPlay 0).1).black →
      randomPlayoutWinner hq o startBoard colorToPlay plies = BLACK) ∧
    ((chineseScore (playoutLoop hq o plies (cloneBoard startBoard) none
        colorToPlay 0).1).black <
      (chineseScore (playoutLoop hq o plies (cloneBoard startBoard) none
        colorToPlay 0).1).white →
      randomPlayoutWinner hq o startBoard colorToPlay plies = WHITE) ∧
    ((chineseScore (playoutLoop hq o plies (cloneBoard startBoard) none
        colorToPlay 0).1).black =
      (chineseScore (playoutLoop hq o plies (cloneBoard startBoard) none
        colorToPlay 0).1).white →
      randomPlayoutWinner hq o startBoard colorToPlay plies = WHITE) := by
  simp only [randomPlayoutWinner]
  refine ⟨fun h => ?_, fun h => ?_, fun h => ?_⟩
  · rw [if_pos h]
  · rw [if_neg (by omega)]
  · rw [if_neg (by omega)]

/-- Witness for `C8_higher_area_wins_tie_white`: the empty 1×1 board is an
exact 0-0 tie and WHITE is declared the winner. -/
theorem C8_witness : randomPlayoutWinner hypotJ prZero [[EMPTY]] BLACK 0 = WHITE :=
  (C8_higher_area_wins_tie_white hypotJ prZero [[EMPTY]] BLACK 0).2.2 (by decide)

/-! ### AI selection lemmas (C6, C9) -/
theorem getD_zero_mem {l : List Move} (h : l ≠ []) (d : Move) : l.getD 0 d ∈ l := by
  cases l with
  | nil => exact absurd rfl h
  | cons x xs => exact List.mem_cons_self x xs

theorem pruneCandidates_subset (hq : JNum → JNum → JNum) (board : Board) (color : Nat)
    (limit : Nat) (moves : List Move) :
    ∀ m ∈ pruneCandidates hq board color limit moves, m ∈ moves := by
  intro m hm
  simp only [pruneCandidates] at hm
  split_ifs at hm with h0
  · rcases List.mem_append.mp hm with h1 | h2
    · rcases List.mem_append.mp h1 with h3 | h4
      · exact List.mem_of_mem_filter h3
      · exact List.mem_of_mem_filter
          (((List.perm_insertionSort _ _).mem_iff).mp (List.mem_of_mem_take h4))
    · exact h2
  · rcases List.mem_append.mp hm with h3 | h4
    · exact List.mem_of_mem_filter h3
    · exact List.mem_of_mem_filter
        (((List.perm_insertionSort _ _).mem_iff).mp (List.mem_of_mem_take h4))

theorem pruneCandidates_ne_nil (hq : JNum → JNum → JNum) (board : Board) (color : Nat)
    (limit : Nat) (moves : List Move) (h : moves ≠ []) :
    pruneCandidates hq board color limit moves ≠ [] := by
  simp only [pruneCandidates]
  split_ifs with h0
  · rw [List.length_eq_zero] at h0
    rw [h0]
    simpa using h
  · intro hc
    rw [hc] at h0
    simp at h0

theorem level1Loop_mem (hq : JNum → JNum → JNum) (o : AIOracle) (board : Board)
    (color : Nat) : ∀ (lst : List Move) (k : Nat) (best : Move) (bestS : JNum) (m : Move),
    level1Loop hq o board color lst k best bestS = some m → m = best ∨ m ∈ lst := by
  intro lst
  induction lst with
  | nil =>
    intro k best bestS m h
    simp only [level1Loop, Option.some_inj] at h
    exact Or.inl h.symm
  | cons x rest ih =>
    intro k best bestS m h
    simp only [level1Loop] at h
    by_cases hc : o.cancel k = true
    · rw [if_pos hc] at h
      exact Option.noConfusion h
    · rw [if_neg hc] at h
      by_cases hs : bestS < heuristic hq board x color
      · rw [if_pos hs] at h
        rcases ih _ _ _ _ h with h2 | h2
        · refine Or.inr ?_
          rw [h2]
          exact List.mem_cons_self x rest
        · exact Or.inr (List.mem_cons_of_mem _ h2)
      · rw [if_neg hs] at h
        rcases ih _ _ _ _ h with h2 | h2
        · exact Or.inl h2
        · exact Or.inr (List.mem_cons_of_mem _ h2)

theorem eq_ite_or {c : Prop} [Decidable c] {a b m : Move}
    (h : (if c then a else b) = m) : m = a ∨ m = b := by
  split_ifs at h
  · exact Or.inl h.symm
  · exact Or.inr h.symm

theorem mcOuter_mem (hq : JNum → JNum → JNum) (o : AIOracle) (board : Board)
    (color : Nat) (playouts plies : Nat) (start : JNum) (budget : Option JNum) :
    ∀ (lst : List Move) (k w : Nat) (best : Move) (bestScore : Option JNum) (m : Move),
    mcOuter hq o board color playouts plies start budget lst k w best bestScore = some m →
    m = best ∨ m ∈ lst := by
  intro lst
  induction lst with
  | nil =>
    intro k w best bestScore m h
    simp only [mcOuter, Option.some_inj] at h
    exact Or.inl h.symm
  | cons x rest ih =>
    intro k w best bestScore m h
    simp only [mcOuter] at h
    by_cases hc : o.cancel k = true
    · rw [if_pos hc] at h
      exact Option.noConfusion h
    · rw [if_neg hc] at h
      rcases hmc : mcPlayouts hq o color plies x.res.board start budget playouts (k + 1) w 0
          with _ | ⟨wins, k2, w2⟩ <;> rw [hmc] at h
      · exact Option.noConfusion h
      · dsimp only at h
        by_cases htime : timeExceeded start (o.now k2) budget = true
        · rw [if_pos htime, Option.some_inj] at h
          rcases eq_ite_or h with h2 | h2
          · refine Or.inr ?_
            rw [h2]
            exact List.mem_cons_self x rest
          · exact Or.inl h2
        · rw [if_neg htime] at h
          rcases ih _ _ _ _ _ h with h2 | h2
          · rcases eq_ite_or h2.symm with h3 | h3
            · refine Or.inr ?_
              rw [h3]
              exact List.mem_cons_self x rest
            · exact Or.inl h3
          · exact Or.inr (List.mem_cons_of_mem _ h2)

/-- **C6.**  Whenever `chooseAIMoveAsync` completes without cancellation
(returns a move), that move is a member of
`legalMoves(board, color, previousKey)`. -/
theorem C6_ai_move_is_legal (hq : JNum → JNum → JNum) (o : AIOracle) (board : Board)
    (color : Nat) (level : Int) (koKeyLast : Option String) (blitz : Bool) (m : Move)
    (hlevel : 1 ≤ level ∧ level ≤ 5)
    (h : chooseAIMoveAsync hq o board color level koKeyLast blitz = some m) :
    m ∈ legalMoves board color koKeyLast := by
  have hne : legalMoves board color koKeyLast ≠ [] :=
    (C4_exactly_one_pass board color koKeyLast).2
  have hcand := pruneCandidates_subset hq board color
    (candidateLimit board.length level) (legalMoves board color koKeyLast)
  have hcne := pruneCandidates_ne_nil hq board color
    (candidateLimit board.length level) (legalMoves board color koKeyLast) hne
  simp only [chooseAIMoveAsync] at h
  split_ifs at h with h1
  · rw [Option.some_inj] at h
    rw [← h]
    exact getD_zero_mem hne _
  all_goals
    first
      | exact (level1Loop_mem hq o board color _ _ _ _ m h).elim
          (fun h3 => hcand _ (h3 ▸ getD_zero_mem hcne _)) (fun h3 => hcand _ h3)
      | exact (mcOuter_mem hq o board color _ _ _ _ _ _ _ _ _ m h).elim
          (fun h3 => hcand _ (h3 ▸ getD_zero_mem hcne _)) (fun h3 => hcand _ h3)

/-- Witness for `C6_ai_move_is_legal` at a concrete input: on the 1×1
board the AI at level 3 returns the pass move, which is legal. -/
theorem C6_witness : passMove [[EMPTY]] ∈ legalMoves [[EMPTY]] BLACK none :=
  C6_ai_move_is_legal hypotJ oZero [[EMPTY]] BLACK 3 none false (passMove [[EMPTY]])
    (by decide) (by decide)

/-! ### Out-of-range level handling (C9) -/
theorem clampLevel_mem (level : Int) : 1 ≤ clampLevel level ∧ clampLevel level ≤ 5 := by
  unfold clampLevel
  omega

theorem clampLevel_idem (level : Int) : clampLevel (clampLevel level) = clampLevel level := by
  unfold clampLevel
  omega

theorem candidateLimit_clamp (sz : Nat) (level : Int) :
    candidateLimit sz level = candidateLimit sz (clampLevel level) := by
  unfold candidateLimit clampLevel
  split_ifs <;> first | rfl | omega

theorem level1Loop_isSome (hq : JNum → JNum → JNum) (o : AIOracle) (board : Board)
    (color : Nat) (hc : ∀ k, o.cancel k = false) :
    ∀ (lst : List Move) (k : Nat) (best : Move) (bestS : JNum),
    (level1Loop hq o board color lst k best bestS).isSome = true := by
  intro lst
  induction lst with
  | nil => intro k best bestS; rfl
  | cons x rest ih =>
    intro k best bestS
    simp only [level1Loop, hc k, Bool.false_eq_true, if_false]
    split_ifs <;> exact ih _ _ _

theorem mcPlayouts_isSome (hq : JNum → JNum → JNum) (o : AIOracle) (color plies : Nat)
    (nextBoard : Board) (start : JNum) (budget : Option JNum)
    (hc : ∀ k, o.cancel k = false) :
    ∀ (i k w wins : Nat),
    (mcPlayouts hq o color plies nextBoard start budget i k w wins).isSome = true := by
  intro i
  induction i with
  | zero => intro k w wins; rfl
  | succ i ih =>
    intro k w wins
    simp only [mcPlayouts, hc k, Bool.false_eq_true, if_false]
    split_ifs <;> first | rfl | exact ih _ _ _

theorem mcOuter_isSome (hq : JNum → JNum → JNum) (o : AIOracle) (board : Board)
    (color : Nat) (playouts plies : Nat) (start : JNum) (budget : Option JNum)
    (hc : ∀ k, o.cancel k = false) :
    ∀ (lst : List Move) (k w : Nat) (best : Move) (bestScore : Option JNum),
    (mcOuter hq o board color playouts plies start budget lst k w best bestScore).isSome =
      true := by
  intro lst
  induction lst with
  | nil => intro k w best bestScore; rfl
  | cons x rest ih =>
    intro k w best bestScore
    simp only [mcOuter, hc k, Bool.false_eq_true, if_false]
    rcases hmc : mcPlayouts hq o color plies x.res.board start budget playouts (k + 1) w 0
        with _ | ⟨wins, k2, w2⟩
    · exact absurd (hmc ▸ mcPlayouts_isSome hq o color plies x.res.board start budget hc
        playouts (k + 1) w 0) (by simp)
    · dsimp only
      split_ifs <;> first | rfl | exact ih _ _ _ _

/-- **C9 counterexample.**  `chooseAIMoveAsync` never validates `level`:
with `level = 0` on the 1×1 board it runs `legalMoves` (a board
computation) and returns the pass move instead of failing. -/
theorem C9_counterexample : ¬ outOfRangeLevelFailsFast := by
  intro h
  have h2 := h 0 (Or.inl (by decide)) hypotJ oZero [[EMPTY]] BLACK none false
  have h3 : chooseAIMoveAsync hypotJ oZero [[EMPTY]] BLACK 0 none false ≠ none := by decide
  exact h3 h2

/-- **C9 (amended).**  An out-of-range level does not fail fast:
`chooseAIMoveAsync` clamps the level into 1..5
(`Math.max(1, Math.min(5, level))`, line 234) and behaves exactly as the
clamped level; and for every level, whenever the cancellation flag is
never set, it returns a move. -/
theorem C9_out_of_range_level_is_clamped :
    (∀ (level : Int), level < 1 ∨ 5 < level →
      ∀ (hq : JNum → JNum → JNum) (o : AIOracle) (board : Board) (color : Nat)
        (koKeyLast : Option String) (blitz : Bool),
        chooseAIMoveAsync hq o board color level koKeyLast blitz =
          chooseAIMoveAsync hq o board color (clampLevel level) koKeyLast blitz ∧
        1 ≤ clampLevel level ∧ clampLevel level ≤ 5) ∧
    (∀ (level : Int) (hq : JNum → JNum → JNum) (o : AIOracle) (board : Board)
      (color : Nat) (koKeyLast : Option String) (blitz : Bool),
      (∀ k, o.cancel k = false) →
      (chooseAIMoveAsync hq o board color level koKeyLast blitz).isSome = true) := by
  constructor
  · intro level _ hq o board color koKeyLast blitz
    refine ⟨?_, clampLevel_mem level⟩
    simp only [chooseAIMoveAsync]
    rw [candidateLimit_clamp, clampLevel_idem]
  · intro level hq o board color koKeyLast blitz hc
    simp only [chooseAIMoveAsync]
    split_ifs
    all_goals
      first
        | rfl
        | exact level1Loop_isSome hq o board color hc _ _ _ _
        | exact mcOuter_isSome hq o board color _ _ _ _ hc _ _ _ _ _

/-- Witness for `C9_out_of_range_level_is_clamped` at `level = 6` on the
1×1 board with a never-cancelling oracle. -/
theorem C9_witness :
    chooseAIMoveAsync hypotJ oZero [[EMPTY]] BLACK 6 none false =
      chooseAIMoveAsync hypotJ oZero [[EMPTY]] BLACK (clampLevel 6) none false ∧
    (chooseAIMoveAsync hypotJ oZero [[EMPTY]] BLACK 6 none false).isSome = true :=
  ⟨(C9_out_of_range_level_is_clamped.1 6 (Or.inr (by decide)) hypotJ oZero [[EMPTY]] BLACK
      none false).1,
    C9_out_of_range_level_is_clamped.2 6 hypotJ oZero [[EMPTY]] BLACK none false
      (fun _ => rfl)⟩

theorem regionNews_nodup (board : Board) (p : Nat × Nat) (seen : Finset (Nat × Nat)) :
    ((neighbors board.length p.1 p.2).filter
      (fun q => decide (getCell board q.1 q.2 = EMPTY ∧ q ∉ seen))).Nodup :=
  (neighbors_nodup _ _ _).filter _

theorem regionMeasure_step_lt (board : Board) (p : Nat × Nat) (rest : List (Nat × Nat))
    (seen : Finset (Nat × Nat)) :
    regionMeasure board.length
      ((((neighbors board.length p.1 p.2).filter
        (fun q => decide (getCell board q.1 q.2 = EMPTY ∧ q ∉ seen))).reverse) ++ rest)
      (seen ∪ ((neighbors board.length p.1 p.2).filter
        (fun q => decide (getCell board q.1 q.2 = EMPTY ∧ q ∉ seen))).toFinset) <
    regionMeasure board.length (p :: rest) seen := by
  unfold regionMeasure
  set news := (neighbors board.length p.1 p.2).filter
    (fun q => decide (getCell board q.1 q.2 = EMPTY ∧ q ∉ seen)) with hnews
  set A := allCellsF board.length with hA
  set U := ((p :: rest).toFinset ∪ A) \ seen with hU
  have hcardnews : news.toFinset.card = news.length :=
    List.toFinset_card_of_nodup (regionNews_nodup board p seen)
  have hsubA : news.toFinset ⊆ A := by
    intro x hx
    rw [List.mem_toFinset, hnews, List.mem_filter] at hx
    rw [hA, mem_allCellsF]
    exact mem_neighbors_bounds hx.1
  have hdisj : ∀ x ∈ news.toFinset, x ∉ seen := by
    intro x hx
    rw [List.mem_toFinset, hnews, List.mem_filter, decide_eq_true_eq] at hx
    exact hx.2.2
  have hnewsU : news.toFinset ⊆ U := by
    intro x hx
    rw [hU, Finset.mem_sdiff]
    exact ⟨Finset.mem_union_right _ (hsubA hx), hdisj x hx⟩
  have hsub : ((news.reverse ++ rest).toFinset ∪ A) \ (seen ∪ news.toFinset) ⊆
      U \ news.toFinset := by
    intro x hx
    rw [Finset.mem_sdiff, Finset.mem_union, List.mem_toFinset, List.mem_append,
      List.mem_reverse, Finset.mem_union] at hx
    rw [Finset.mem_sdiff, hU, Finset.mem_sdiff, Finset.mem_union, List.mem_toFinset]
    obtain ⟨hx1, hx2⟩ := hx
    push_neg at hx2
    refine ⟨⟨?_, hx2.1⟩, hx2.2⟩
    rcases hx1 with (hq | hq) | hq
    · exact Or.inr (hsubA (List.mem_toFinset.mpr hq))
    · exact Or.inl (List.mem_cons_of_mem _ hq)
    · exact Or.inr hq
  have hcard1 := Finset.card_le_card hsub
  rw [Finset.card_sdiff hnewsU] at hcard1
  have hcard2 := Finset.card_le_card hnewsU
  simp only [List.length_append, List.length_reverse, List.length_cons]
  omega

theorem regionLoop_seen_mono (board : Board) :
    ∀ (fuel : Nat) (stack : List (Nat × Nat)) (seen : Finset (Nat × Nat))
      (count : Nat) (border : Finset Nat) (x : Nat × Nat), x ∈ seen →
      x ∈ (regionLoop board fuel stack seen count border).1 := by
  intro fuel
  induction fuel with
  | zero =>
    intro stack seen count border x hx
    cases stack <;> simp only [regionLoop] <;> exact hx
  | succ fuel ih =>
    intro stack seen count border x hx
    cases stack with
    | nil => simp only [regionLoop]; exact hx
    | cons p rest =>
      simp only [regionLoop]
      exact ih _ _ _ _ x (Finset.mem_union_left _ hx)

theorem regionLoop_seen_sound (board : Board) (P Q : (Nat × Nat) → Prop)
    (hQstep : ∀ x, Q x → ∀ q ∈ neighbors board.length x.1 x.2,
      getCell board q.1 q.2 = EMPTY → Q q) :
    ∀ (fuel : Nat) (stack : List (Nat × Nat)) (seen : Finset (Nat × Nat))
      (count : Nat) (border : Finset Nat),
      (∀ x ∈ stack, Q x) → (∀ x ∈ seen, P x ∨ Q x) →
      ∀ x ∈ (regionLoop board fuel stack seen count border).1, P x ∨ Q x := by
  intro fuel
  induction fuel with
  | zero =>
    intro stack seen count border _ hseen x hx
    cases stack <;> simp only [regionLoop] at hx <;> exact hseen x hx
  | succ fuel ih =>
    intro stack seen count border hstack hseen x hx
    cases stack with
    | nil => simp only [regionLoop] at hx; exact hseen x hx
    | cons p rest =>
      simp only [regionLoop] at hx
      refine ih _ _ _ _ ?_ ?_ x hx
      · intro y hy
        rcases List.mem_append.mp hy with hy1 | hy2
        · rw [List.mem_reverse, List.mem_filter, decide_eq_true_eq] at hy1
          exact hQstep p (hstack p (List.mem_cons_self _ _)) y hy1.1 hy1.2.1
        · exact hstack y (List.mem_cons_of_mem _ hy2)
      · intro y hy
        rcases Finset.mem_union.mp hy with hy1 | hy2
        · exact hseen y hy1
        · rw [List.mem_toFinset, List.mem_filter, decide_eq_true_eq] at hy2
          exact Or.inr (hQstep p (hstack p (List.mem_cons_self _ _)) y hy2.1 hy2.2.1)

theorem regionLoop_closure (board : Board) :
    ∀ (fuel : Nat) (stack : List (Nat × Nat)) (seen : Finset (Nat × Nat))
      (count : Nat) (border : Finset Nat),
      regionMeasure board.length stack seen < fuel →
      ∀ x, (x ∈ stack ∨ (x ∈ (regionLoop board fuel stack seen count border).1 ∧ x ∉ seen)) →
      ∀ q ∈ neighbors board.length x.1 x.2, getCell board q.1 q.2 = EMPTY →
        q ∈ (regionLoop board fuel stack seen count border).1 := by
  intro fuel
  induction fuel with
  | zero =>
    intro stack seen count border hm
    omega
  | succ fuel ih =>
    intro stack seen count border hm x hx q hq hqe
    cases stack with
    | nil =>
      simp only [regionLoop] at hx ⊢
      rcases hx with h | ⟨h1, h2⟩
      · exact absurd h (List.not_mem_nil x)
      · exact absurd h1 h2
    | cons p rest =>
      have hm2 := regionMeasure_step_lt board p rest seen
      have hm' : regionMeasure board.length
          ((((neighbors board.length p.1 p.2).filter
            (fun y => decide (getCell board y.1 y.2 = EMPTY ∧ y ∉ seen))).reverse) ++ rest)
          (seen ∪ ((neighbors board.length p.1 p.2).filter
            (fun y => decide (getCell board y.1 y.2 = EMPTY ∧ y ∉ seen))).toFinset) <
          fuel := by omega
      simp only [regionLoop] at hx ⊢
      rcases hx with h | ⟨h1, h2⟩
      · rcases List.mem_cons.mp h with rfl | hrest
        · by_cases hqs : q ∈ seen
          · exact regionLoop_seen_mono board _ _ _ _ _ q (Finset.mem_union_left _ hqs)
          · refine regionLoop_seen_mono board _ _ _ _ _ q (Finset.mem_union_right _ ?_)
            rw [List.mem_toFinset, List.mem_filter, decide_eq_true_eq]
            exact ⟨hq, hqe, hqs⟩
        · exact ih _ _ _ _ hm' x (Or.inl (List.mem_append_right _ hrest)) q hq hqe
      · by_cases hxn : x ∈ ((neighbors board.length p.1 p.2).filter
            (fun y => decide (getCell board y.1 y.2 = EMPTY ∧ y ∉ seen))).toFinset
        · refine ih _ _ _ _ hm' x (Or.inl (List.mem_append_left _ ?_)) q hq hqe
          rw [List.mem_reverse]
          exact List.mem_toFinset.mp hxn
        · refine ih _ _ _ _ hm' x (Or.inr ⟨h1, ?_⟩) q hq hqe
          rw [Finset.mem_union]
          push_neg
          exact ⟨h2, hxn⟩

theorem regionLoop_count (board : Board) :
    ∀ (fuel : Nat) (stack : List (Nat × Nat)) (seen : Finset (Nat × Nat))
      (count : Nat) (border : Finset Nat),
      regionMeasure board.length stack seen < fuel →
      (regionLoop board fuel stack seen count border).2.1 + seen.card =
        count + stack.length + (regionLoop board fuel stack seen count border).1.card := by
  intro fuel
  induction fuel with
  | zero =>
    intro stack seen count border hm
    omega
  | succ fuel ih =>
    intro stack seen count border hm
    cases stack with
    | nil =>
      simp only [regionLoop, List.length_nil]
      omega
    | cons p rest =>
      have hm2 := regionMeasure_step_lt board p rest seen
      have hm' : regionMeasure board.length
          ((((neighbors board.length p.1 p.2).filter
            (fun y => decide (getCell board y.1 y.2 = EMPTY ∧ y ∉ seen))).reverse) ++ rest)
          (seen ∪ ((neighbors board.length p.1 p.2).filter
            (fun y => decide (getCell board y.1 y.2 = EMPTY ∧ y ∉ seen))).toFinset) <
          fuel := by omega
      simp only [regionLoop]
      have hih := ih _ _ (count + 1)
        (border ∪ (((neighbors board.length p.1 p.2).filter
          (fun y => decide (getCell board y.1 y.2 ≠ EMPTY))).map
          (fun y => getCell board y.1 y.2)).toFinset) hm'
      have hdisj : Disjoint seen ((neighbors board.length p.1 p.2).filter
          (fun y => decide (getCell board y.1 y.2 = EMPTY ∧ y ∉ seen))).toFinset := by
        rw [Finset.disjoint_right]
        intro a ha
        rw [List.mem_toFinset, List.mem_filter, decide_eq_true_eq] at ha
        exact ha.2.2
      have hcardu := Finset.card_union_of_disjoint hdisj
      have hcardnews : ((neighbors board.length p.1 p.2).filter
          (fun y => decide (getCell board y.1 y.2 = EMPTY ∧ y ∉ seen))).toFinset.card =
          ((neighbors board.length p.1 p.2).filter
            (fun y => decide (getCell board y.1 y.2 = EMPTY ∧ y ∉ seen))).length :=
        List.toFinset_card_of_nodup (regionNews_nodup board p seen)
      rw [hcardu, hcardnews] at hih
      simp only [List.length_append, List.length_reverse, List.length_cons] at hih ⊢
      omega

theorem regionLoop_border (board : Board) :
    ∀ (fuel : Nat) (stack : List (Nat × Nat)) (seen : Finset (Nat × Nat))
      (count : Nat) (border : Finset Nat),
      regionMeasure board.length stack seen < fuel →
      (∀ x ∈ stack, x ∈ seen) →
      (regionLoop board fuel stack seen count border).2.2 =
        border ∪ bColors board (stack.toFinset ∪
          ((regionLoop board fuel stack seen count border).1 \ seen)) := by
  intro fuel
  induction fuel with
  | zero =>
    intro stack seen count border hm
    omega
  | succ fuel ih =>
    intro stack seen count border hm hstack
    cases stack with
    | nil =>
      simp [regionLoop, bColors]
    | cons p rest =>
      have hm2 := regionMeasure_step_lt board p rest seen
      simp only [regionLoop]
      set news := (neighbors board.length p.1 p.2).filter
        (fun q => decide (getCell board q.1 q.2 = EMPTY ∧ q ∉ seen)) with hnewsdef
      set bAdd := ((neighbors board.length p.1 p.2).filter
        (fun q => decide (getCell board q.1 q.2 ≠ EMPTY))).map
        (fun q => getCell board q.1 q.2) with hbAdd
      have hm' : regionMeasure board.length (news.reverse ++ rest)
          (seen ∪ news.toFinset) < fuel := by omega
      have hstack' : ∀ x ∈ news.reverse ++ rest, x ∈ seen ∪ news.toFinset := by
        intro x hx
        rcases List.mem_append.mp hx with hx | hx
        · exact Finset.mem_union_right _ (List.mem_toFinset.mpr (List.mem_reverse.mp hx))
        · exact Finset.mem_union_left _ (hstack x (List.mem_cons_of_mem _ hx))
      rw [ih _ _ _ _ hm' hstack']
      set F := (regionLoop board fuel (news.reverse ++ rest) (seen ∪ news.toFinset)
        (count + 1) (border ∪ bAdd.toFinset)).1 with hF
      have hNF : ∀ y ∈ news.toFinset, y ∈ F ∧ y ∉ seen := by
        intro y hy
        have hy' := hy
        rw [List.mem_toFinset, hnewsdef, List.mem_filter, decide_eq_true_eq] at hy'
        exact ⟨regionLoop_seen_mono board _ _ _ _ _ y (Finset.mem_union_right _ hy),
          hy'.2.2⟩
      have hsetEq : (p :: rest).toFinset ∪ (F \ seen)
          = insert p ((news.reverse ++ rest).toFinset ∪ (F \ (seen ∪ news.toFinset))) := by
        ext x
        constructor
        · intro hx
          rcases Finset.mem_union.mp hx with hx | hx
          · rw [List.toFinset_cons, Finset.mem_insert] at hx
            rcases hx with rfl | hx
            · exact Finset.mem_insert_self _ _
            · refine Finset.mem_insert_of_mem (Finset.mem_union_left _ ?_)
              rw [List.mem_toFinset, List.mem_append]
              exact Or.inr (List.mem_toFinset.mp hx)
          · rw [Finset.mem_sdiff] at hx
            by_cases hxn : x ∈ news.toFinset
            · refine Finset.mem_insert_of_mem (Finset.mem_union_left _ ?_)
              rw [List.mem_toFinset, List.mem_append, List.mem_reverse]
              exact Or.inl (List.mem_toFinset.mp hxn)
            · refine Finset.mem_insert_of_mem (Finset.mem_union_right _
                (Finset.mem_sdiff.mpr ⟨hx.1, ?_⟩))
              rw [Finset.mem_union]
              push_neg
              exact ⟨hx.2, hxn⟩
        · intro hx
          rcases Finset.mem_insert.mp hx with rfl | hx
          · refine Finset.mem_union_left _ ?_
            rw [List.toFinset_cons]
            exact Finset.mem_insert_self _ _
          rcases Finset.mem_union.mp hx with hx | hx
          · rw [List.mem_toFinset, List.mem_append, List.mem_reverse] at hx
            rcases hx with hx | hx
            · exact Finset.mem_union_right _
                (Finset.mem_sdiff.mpr (hNF _ (List.mem_toFinset.mpr hx)))
            · refine Finset.mem_union_left _ ?_
              rw [List.toFinset_cons]
              exact Finset.mem_insert_of_mem (List.mem_toFinset.mpr hx)
          · rw [Finset.mem_sdiff, Finset.mem_union] at hx
            push_neg at hx
            exact Finset.mem_union_right _ (Finset.mem_sdiff.mpr ⟨hx.1, hx.2.1⟩)
      rw [hsetEq]
      simp only [bColors, Finset.biUnion_insert]
      rw [Finset.union_assoc, hbAdd]
      rfl

theorem emptyReach_empty {b : Board} {p q : Nat × Nat}
    (hp : getCell b p.1 p.2 = EMPTY) (h : EmptyReach b p q) :
    getCell b q.1 q.2 = EMPTY := by
  rcases Relation.ReflTransGen.cases_tail h with rfl | ⟨c, _, hstep⟩
  · exact hp
  · exact hstep.2

theorem emptyReach_bounds {b : Board} {p q : Nat × Nat}
    (hp1 : p.1 < b.length) (hp2 : p.2 < b.length) (h : EmptyReach b p q) :
    q.1 < b.length ∧ q.2 < b.length := by
  rcases Relation.ReflTransGen.cases_tail h with rfl | ⟨c, _, hstep⟩
  · exact ⟨hp1, hp2⟩
  · exact mem_neighbors_bounds hstep.1

theorem emptyReach_symm {b : Board} {p q : Nat × Nat}
    (hp : getCell b p.1 p.2 = EMPTY) (hp1 : p.1 < b.length) (hp2 : p.2 < b.length)
    (h : EmptyReach b p q) : EmptyReach b q p := by
  induction h with
  | refl => exact Relation.ReflTransGen.refl
  | tail h1 h2 ih =>
    rename_i m c
    have hm := emptyReach_bounds hp1 hp2 h1
    have hme : getCell b m.1 m.2 = EMPTY := emptyReach_empty hp h1
    exact Relation.ReflTransGen.head ⟨neighbors_symm h2.1 hm.1 hm.2, hme⟩ ih

theorem regionBorder_congr {b : Board} {p q : Nat × Nat}
    (hp : getCell b p.1 p.2 = EMPTY) (hp1 : p.1 < b.length) (hp2 : p.2 < b.length)
    (h : EmptyReach b p q) : RegionBorder b q = RegionBorder b p := by
  have hqp := emptyReach_symm hp hp1 hp2 h
  ext v
  simp only [RegionBorder, Set.mem_setOf_eq]
  constructor
  · rintro ⟨r, hr, hv⟩
    exact ⟨r, h.trans hr, hv⟩
  · rintro ⟨r, hr, hv⟩
    exact ⟨r, hqp.trans hr, hv⟩

theorem reach_mem_closed {b : Board} {S : Finset (Nat × Nat)}
    (hcl : ∀ x ∈ S, ∀ q ∈ neighbors b.length x.1 x.2, getCell b q.1 q.2 = EMPTY → q ∈ S)
    {p q : Nat × Nat} (hp : p ∈ S) (h : EmptyReach b p q) : q ∈ S := by
  induction h with
  | refl => exact hp
  | tail _ h2 ih => exact hcl _ ih _ h2.1 h2.2

theorem regionMeasure_init_lt (size : Nat) (p : Nat × Nat) (seen : Finset (Nat × Nat)) :
    regionMeasure size [p] seen < floodFuel size := by
  unfold regionMeasure floodFuel
  have h1 : (([p].toFinset ∪ allCellsF size) \ seen).card ≤ size * size + 1 := by
    calc (([p].toFinset ∪ allCellsF size) \ seen).card
        ≤ ([p].toFinset ∪ allCellsF size).card := Finset.card_le_card Finset.sdiff_subset
      _ ≤ [p].toFinset.card + (allCellsF size).card := Finset.card_union_le _ _
      _ ≤ size * size + 1 := by
        rw [card_allCellsF]
        have h2 : ([p] : List (Nat × Nat)).toFinset.card ≤ 1 := by simp
        omega
  simp only [List.length_cons, List.length_nil]
  omega

theorem getCell_valid {b : Board} (hvb : ValidBoard b) (r c : Nat) :
    getCell b r c = EMPTY ∨ getCell b r c = BLACK ∨ getCell b r c = WHITE := by
  unfold getCell
  by_cases hr : r < b.length
  · rw [List.getD_eq_getElem b [] hr]
    by_cases hc : c < (b[r]).length
    · rw [List.getD_eq_getElem _ EMPTY hc]
      exact hvb _ (List.getElem_mem hr) _ (List.getElem_mem hc)
    · rw [List.getD_eq_default _ EMPTY (le_of_not_lt hc)]
      exact Or.inl rfl
  · rw [List.getD_eq_default _ [] (le_of_not_lt hr)]
    exact Or.inl rfl

/-- Full characterisation of one `regionLoop` call as issued by
`territoryStep` on a fresh empty in-bounds cell `p`, assuming the prior
`seen` set is closed under empty-neighbour steps: the final `seen` is the
old one plus the empty region of `p` (which is disjoint from it), the
returned count is the region size, and the border set is exactly the
spec-side `RegionBorder`. -/
theorem regionCall (board : Board) (p : Nat × Nat) (seen0 : Finset (Nat × Nat))
    (hpe : getCell board p.1 p.2 = EMPTY)
    (hp1 : p.1 < board.length) (hp2 : p.2 < board.length)
    (hp0 : p ∉ seen0)
    (hI2 : ∀ x ∈ seen0, ∀ q ∈ neighbors board.length x.1 x.2,
      getCell board q.1 q.2 = EMPTY → q ∈ seen0) :
    (∀ x, x ∈ (regionLoop board (floodFuel board.length) [p] (insert p seen0) 0 ∅).1 ↔
      (x ∈ seen0 ∨ EmptyReach board p x)) ∧
    (∀ q ∈ seen0, ¬ EmptyReach board p q) ∧
    (regionLoop board (floodFuel board.length) [p] (insert p seen0) 0 ∅).2.1 =
      Set.ncard {q | EmptyReach board p q} ∧
    ↑(regionLoop board (floodFuel board.length) [p] (insert p seen0) 0 ∅).2.2 =
      RegionBorder board p := by
  have hm : regionMeasure board.length [p] (insert p seen0) < floodFuel board.length :=
    regionMeasure_init_lt _ _ _
  set R := regionLoop board (floodFuel board.length) [p] (insert p seen0) 0 ∅ with hR
  have hdisj : ∀ q ∈ seen0, ¬ EmptyReach board p q := by
    intro q hq hreach
    exact hp0 (reach_mem_closed hI2 hq (emptyReach_symm hpe hp1 hp2 hreach))
  have hmem : ∀ x, x ∈ R.1 ↔ (x ∈ seen0 ∨ EmptyReach board p x) := by
    intro x
    constructor
    · intro hx
      refine regionLoop_seen_sound board (· ∈ seen0) (EmptyReach board p)
        (fun y hy q hq hqe => hy.tail ⟨hq, hqe⟩) _ _ _ _ _ ?_ ?_ x hx
      · intro y hy
        rw [List.mem_singleton] at hy
        subst hy
        exact Relation.ReflTransGen.refl
      · intro y hy
        rcases Finset.mem_insert.mp hy with rfl | hy
        · exact Or.inr Relation.ReflTransGen.refl
        · exact Or.inl hy
    · intro hx
      rcases hx with hx | hx
      · exact regionLoop_seen_mono board _ _ _ _ _ x (Finset.mem_insert_of_mem hx)
      · induction hx with
        | refl => exact regionLoop_seen_mono board _ _ _ _ _ p (Finset.mem_insert_self _ _)
        | tail h1 h2 ih =>
          rename_i m c
          by_cases hmp : m = p
          · subst hmp
            exact regionLoop_closure board _ _ _ _ _ hm m (Or.inl (List.mem_singleton_self m))
              c h2.1 h2.2
          · refine regionLoop_closure board _ _ _ _ _ hm m (Or.inr ⟨ih, ?_⟩) c h2.1 h2.2
            rw [Finset.mem_insert]
            push_neg
            exact ⟨hmp, fun hms => hdisj m hms h1⟩
  have hsub0 : seen0 ⊆ R.1 := fun x hx => (hmem x).mpr (Or.inl hx)
  have hsetEq : {q | EmptyReach board p q} = ↑(R.1 \ seen0) := by
    ext x
    simp only [Set.mem_setOf_eq, Finset.coe_sdiff, Set.mem_diff, Finset.mem_coe]
    constructor
    · intro hx
      exact ⟨(hmem x).mpr (Or.inr hx), fun hxs => hdisj x hxs hx⟩
    · rintro ⟨hx1, hx2⟩
      rcases (hmem x).mp hx1 with hx | hx
      · exact absurd hx hx2
      · exact hx
  refine ⟨hmem, hdisj, ?_, ?_⟩
  · have hcount := regionLoop_count board (floodFuel board.length) [p] (insert p seen0) 0 ∅ hm
    rw [← hR] at hcount
    rw [Finset.card_insert_of_not_mem hp0] at hcount
    have hsd : (R.1 \ seen0).card = R.1.card - seen0.card := Finset.card_sdiff hsub0
    have hle : seen0.card ≤ R.1.card := Finset.card_le_card hsub0
    rw [hsetEq, Set.ncard_coe_Finset]
    simp only [List.length_cons, List.length_nil] at hcount
    omega
  · have hborder := regionLoop_border board (floodFuel board.length) [p] (insert p seen0) 0 ∅
      hm (by intro x hx; rw [List.mem_singleton] at hx; subst hx; exact Finset.mem_insert_self _ _)
    rw [← hR, Finset.empty_union] at hborder
    have hsets : [p].toFinset ∪ (R.1 \ insert p seen0) = R.1 \ seen0 := by
      ext x
      simp only [Finset.mem_union, List.toFinset_cons, List.toFinset_nil,
        Finset.mem_insert, Finset.not_mem_empty, or_false, Finset.mem_sdiff,
        Finset.mem_insert]
      constructor
      · rintro (rfl | ⟨hx1, hx2⟩)
        · exact ⟨(hmem x).mpr (Or.inr Relation.ReflTransGen.refl), hp0⟩
        · push_neg at hx2
          exact ⟨hx1, hx2.2⟩
      · rintro ⟨hx1, hx2⟩
        by_cases hxp : x = p
        · exact Or.inl hxp
        · exact Or.inr ⟨hx1, by push_neg; exact ⟨hxp, hx2⟩⟩
    rw [hborder, hsets]
    ext v
    simp only [bColors, Finset.coe_biUnion, Set.mem_iUnion, Finset.mem_coe,
      Finset.mem_sdiff, RegionBorder, Set.mem_setOf_eq]
    constructor
    · rintro ⟨q, ⟨hq1, hq2⟩, hv⟩
      rcases (hmem q).mp hq1 with hq | hq
      · exact absurd hq hq2
      · exact ⟨q, hq, hv⟩
    · rintro ⟨q, hq, hv⟩
      exact ⟨q, ⟨(hmem q).mpr (Or.inr hq), fun hqs => hdisj q hqs hq⟩, hv⟩

/-- One outer-scan step (lines 125-146) preserves the scan invariants and
adds to each color exactly the newly seen empty cells whose spec-side
region border is that color alone. -/
theorem territoryStep_spec (board : Board) (hvb : ValidBoard board)
    (st : Finset (Nat × Nat) × Nat × Nat) (p : Nat × Nat)
    (hp1 : p.1 < board.length) (hp2 : p.2 < board.length)
    (hI1 : ∀ x ∈ st.1, x.1 < board.length ∧ x.2 < board.length ∧
      getCell board x.1 x.2 = EMPTY)
    (hI2 : ∀ x ∈ st.1, ∀ q ∈ neighbors board.length x.1 x.2,
      getCell board q.1 q.2 = EMPTY → q ∈ st.1) :
    (∀ x ∈ (territoryStep board st p).1, x.1 < board.length ∧ x.2 < board.length ∧
      getCell board x.1 x.2 = EMPTY) ∧
    (∀ x ∈ (territoryStep board st p).1, ∀ q ∈ neighbors board.length x.1 x.2,
      getCell board q.1 q.2 = EMPTY → q ∈ (territoryStep board st p).1) ∧
    st.1 ⊆ (territoryStep board st p).1 ∧
    (getCell board p.1 p.2 = EMPTY → p ∈ (territoryStep board st p).1) ∧
    (territoryStep board st p).2.1 = st.2.1 +
      Set.ncard {q : Nat × Nat | q ∈ (territoryStep board st p).1 ∧ q ∉ st.1 ∧
        RegionBorder board q = {BLACK}} ∧
    (territoryStep board st p).2.2 = st.2.2 +
      Set.ncard {q : Nat × Nat | q ∈ (territoryStep board st p).1 ∧ q ∉ st.1 ∧
        RegionBorder board q = {WHITE}} := by
  by_cases h0 : getCell board p.1 p.2 ≠ EMPTY ∨ p ∈ st.1
  · have hst : territoryStep board st p = st := by
      unfold territoryStep
      rw [if_pos h0]
    rw [hst]
    have hD : ∀ c' : Nat, {q : Nat × Nat | q ∈ st.1 ∧ q ∉ st.1 ∧
        RegionBorder board q = {c'}} = (∅ : Set (Nat × Nat)) := by
      intro c'
      rw [Set.eq_empty_iff_forall_not_mem]
      rintro x ⟨hx1, hx2, _⟩
      exact hx2 hx1
    refine ⟨hI1, hI2, Finset.Subset.refl _, ?_, ?_, ?_⟩
    · intro hpe
      rcases h0 with h0 | h0
      · exact absurd hpe h0
      · exact h0
    · rw [hD BLACK, Set.ncard_empty]
      omega
    · rw [hD WHITE, Set.ncard_empty]
      omega
  · push_neg at h0
    obtain ⟨hpe, hp0⟩ := h0
    have hno : ¬(getCell board p.1 p.2 ≠ EMPTY ∨ p ∈ st.1) := by
      push_neg
      exact ⟨hpe, hp0⟩
    obtain ⟨hmem, hdisj, hcount, hborder⟩ := regionCall board p st.1 hpe hp1 hp2 hp0 hI2
    set R := regionLoop board (floodFuel board.length) [p] (insert p st.1) 0 ∅ with hres
    have hI1R : ∀ x ∈ R.1, x.1 < board.length ∧ x.2 < board.length ∧
        getCell board x.1 x.2 = EMPTY := by
      intro x hx
      rcases (hmem x).mp hx with hx | hx
      · exact hI1 x hx
      · obtain ⟨hb1, hb2⟩ := emptyReach_bounds hp1 hp2 hx
        exact ⟨hb1, hb2, emptyReach_empty hpe hx⟩
    have hI2R : ∀ x ∈ R.1, ∀ q ∈ neighbors board.length x.1 x.2,
        getCell board q.1 q.2 = EMPTY → q ∈ R.1 := by
      intro x hx q hq hqe
      rcases (hmem x).mp hx with hx | hx
      · exact (hmem q).mpr (Or.inl (hI2 x hx q hq hqe))
      · exact (hmem q).mpr (Or.inr (hx.tail ⟨hq, hqe⟩))
    have hsubR : st.1 ⊆ R.1 := fun x hx => (hmem x).mpr (Or.inl hx)
    have hpR : p ∈ R.1 := (hmem p).mpr (Or.inr Relation.ReflTransGen.refl)
    have hDeq : ∀ c' : Nat, RegionBorder board p = {c'} →
        {q : Nat × Nat | q ∈ R.1 ∧ q ∉ st.1 ∧ RegionBorder board q = {c'}} =
          {q | EmptyReach board p q} := by
      intro c' hRB
      ext x
      simp only [Set.mem_setOf_eq]
      constructor
      · rintro ⟨hx1, hx2, _⟩
        rcases (hmem x).mp hx1 with h | h
        · exact absurd h hx2
        · exact h
      · intro hx
        exact ⟨(hmem x).mpr (Or.inr hx), fun hs => hdisj x hs hx,
          by rw [regionBorder_congr hpe hp1 hp2 hx, hRB]⟩
    have hDne : ∀ c' : Nat, RegionBorder board p ≠ {c'} →
        {q : Nat × Nat | q ∈ R.1 ∧ q ∉ st.1 ∧ RegionBorder board q = {c'}} = ∅ := by
      intro c' hRB
      rw [Set.eq_empty_iff_forall_not_mem]
      rintro x ⟨hx1, hx2, hx3⟩
      rcases (hmem x).mp hx1 with h | h
      · exact hx2 h
      · rw [regionBorder_congr hpe hp1 hp2 h] at hx3
        exact hRB hx3
    have hBW : BLACK ≠ WHITE := by decide
    by_cases hcard1 : R.2.2.card = 1
    · by_cases hBk : BLACK ∈ R.2.2
      · have hsing : R.2.2 = {BLACK} := by
          obtain ⟨a, ha⟩ := Finset.card_eq_one.mp hcard1
          rw [ha] at hBk ⊢
          rw [Finset.mem_singleton] at hBk
          rw [hBk]
        have hRBp : RegionBorder board p = {BLACK} := by
          rw [← hborder, hsing, Finset.coe_singleton]
        have hstep : territoryStep board st p = (R.1, st.2.1 + R.2.1, st.2.2) := by
          simp only [territoryStep]
          rw [if_neg hno, ← hres, if_pos hcard1, if_pos hBk,
            if_pos (rfl : BLACK = BLACK)]
        rw [hstep]
        refine ⟨hI1R, hI2R, hsubR, fun _ => hpR, ?_, ?_⟩
        · rw [hDeq BLACK hRBp, ← hcount]
        · have hne : RegionBorder board p ≠ {WHITE} := by
            rw [hRBp]
            intro h
            exact hBW (Set.singleton_eq_singleton_iff.mp h)
          rw [hDne WHITE hne, Set.ncard_empty]
          simp
      · have hsing : R.2.2 = {WHITE} := by
          obtain ⟨a, ha⟩ := Finset.card_eq_one.mp hcard1
          have haBW : a = BLACK ∨ a = WHITE := by
            have haRB : (a : Nat) ∈ RegionBorder board p := by
              rw [← hborder, ha]
              simp
            obtain ⟨q, hq, hv⟩ := haRB
            rw [nbrColors, List.mem_toFinset, List.mem_map] at hv
            obtain ⟨y, hy, hyv⟩ := hv
            rw [List.mem_filter, decide_eq_true_eq] at hy
            rcases getCell_valid hvb y.1 y.2 with h | h | h
            · exact absurd h hy.2
            · rw [hyv] at h
              exact Or.inl h
            · rw [hyv] at h
              exact Or.inr h
          rcases haBW with h | h
          · rw [h] at ha
            exact absurd (by rw [ha]; exact Finset.mem_singleton_self _) hBk
          · rw [h] at ha
            exact ha
        have hRBp : RegionBorder board p = {WHITE} := by
          rw [← hborder, hsing, Finset.coe_singleton]
        have hWB : ¬(WHITE = BLACK) := by decide
        have hstep : territoryStep board st p = (R.1, st.2.1, st.2.2 + R.2.1) := by
          simp only [territoryStep]
          rw [if_neg hno, ← hres, if_pos hcard1, if_neg hBk, if_neg hWB,
            if_pos (rfl : WHITE = WHITE)]
        rw [hstep]
        refine ⟨hI1R, hI2R, hsubR, fun _ => hpR, ?_, ?_⟩
        · have hne : RegionBorder board p ≠ {BLACK} := by
            rw [hRBp]
            intro h
            exact hBW (Set.singleton_eq_singleton_iff.mp h).symm
          rw [hDne BLACK hne, Set.ncard_empty]
          simp
        · rw [hDeq WHITE hRBp, ← hcount]
    · have hRBne : ∀ c' : Nat, RegionBorder board p ≠ {c'} := by
        intro c' h
        have hcoe : R.2.2 = {c'} := by
          apply Finset.coe_injective
          rw [hborder, h, Finset.coe_singleton]
        rw [hcoe] at hcard1
        exact hcard1 (Finset.card_singleton c')
      have h0B : ¬((0 : Nat) = BLACK) := by decide
      have h0W : ¬((0 : Nat) = WHITE) := by decide
      have hstep : territoryStep board st p = (R.1, st.2.1, st.2.2) := by
        simp only [territoryStep]
        rw [if_neg hno, ← hres, if_neg hcard1, if_neg h0B, if_neg h0W]
      rw [hstep]
      refine ⟨hI1R, hI2R, hsubR, fun _ => hpR, ?_, ?_⟩
      · rw [hDne BLACK (hRBne BLACK), Set.ncard_empty]
        simp
      · rw [hDne WHITE (hRBne WHITE), Set.ncard_empty]
        simp

theorem ncard_split_aux (board : Board) (S0 S1 S2 : Finset (Nat × Nat)) (c' : Nat)
    (h01 : S0 ⊆ S1) (h12 : S1 ⊆ S2) :
    Set.ncard {q : Nat × Nat | q ∈ S2 ∧ q ∉ S0 ∧ RegionBorder board q = {c'}} =
      Set.ncard {q : Nat × Nat | q ∈ S1 ∧ q ∉ S0 ∧ RegionBorder board q = {c'}} +
      Set.ncard {q : Nat × Nat | q ∈ S2 ∧ q ∉ S1 ∧ RegionBorder board q = {c'}} := by
  have hE : {q : Nat × Nat | q ∈ S2 ∧ q ∉ S0 ∧ RegionBorder board q = {c'}} =
      {q : Nat × Nat | q ∈ S1 ∧ q ∉ S0 ∧ RegionBorder board q = {c'}} ∪
      {q : Nat × Nat | q ∈ S2 ∧ q ∉ S1 ∧ RegionBorder board q = {c'}} := by
    ext a
    simp only [Set.mem_setOf_eq, Set.mem_union]
    constructor
    · rintro ⟨ha2, ha0, haP⟩
      by_cases ha1 : a ∈ S1
      · exact Or.inl ⟨ha1, ha0, haP⟩
      · exact Or.inr ⟨ha2, ha1, haP⟩
    · rintro (⟨ha1, ha0, haP⟩ | ⟨ha2, ha1, haP⟩)
      · exact ⟨h12 ha1, ha0, haP⟩
      · exact ⟨ha2, fun h0 => ha1 (h01 h0), haP⟩
  rw [hE]
  refine Set.ncard_union_eq ?_ ?_ ?_
  · rw [Set.disjoint_left]
    rintro a ⟨ha1, _, _⟩ ⟨_, hna1, _⟩
    exact hna1 ha1
  · exact Set.Finite.subset S1.finite_toSet (fun a ha => ha.1)
  · exact Set.Finite.subset S2.finite_toSet (fun a ha => ha.1)

/-- The outer `for (r) for (c)` scan of `chineseScore` (lines 125-146),
folded over any cell list: it keeps the invariants, covers every empty
scanned cell, and adds to each color exactly the newly seen empty cells
whose region border is that color alone. -/
theorem territory_fold (board : Board) (hvb : ValidBoard board) :
    ∀ (L : List (Nat × Nat)) (st : Finset (Nat × Nat) × Nat × Nat),
      (∀ x ∈ L, x.1 < board.length ∧ x.2 < board.length) →
      (∀ x ∈ st.1, x.1 < board.length ∧ x.2 < board.length ∧
        getCell board x.1 x.2 = EMPTY) →
      (∀ x ∈ st.1, ∀ q ∈ neighbors board.length x.1 x.2,
        getCell board q.1 q.2 = EMPTY → q ∈ st.1) →
      (∀ x ∈ (L.foldl (territoryStep board) st).1,
        x.1 < board.length ∧ x.2 < board.length ∧ getCell board x.1 x.2 = EMPTY) ∧
      st.1 ⊆ (L.foldl (territoryStep board) st).1 ∧
      (∀ x ∈ L, getCell board x.1 x.2 = EMPTY →
        x ∈ (L.foldl (territoryStep board) st).1) ∧
      (L.foldl (territoryStep board) st).2.1 = st.2.1 +
        Set.ncard {q : Nat × Nat | q ∈ (L.foldl (territoryStep board) st).1 ∧
          q ∉ st.1 ∧ RegionBorder board q = {BLACK}} ∧
      (L.foldl (territoryStep board) st).2.2 = st.2.2 +
        Set.ncard {q : Nat × Nat | q ∈ (L.foldl (territoryStep board) st).1 ∧
          q ∉ st.1 ∧ RegionBorder board q = {WHITE}} := by
  intro L
  induction L with
  | nil =>
    intro st hL hI1 hI2
    simp only [List.foldl_nil]
    have hD : ∀ c' : Nat, {q : Nat × Nat | q ∈ st.1 ∧ q ∉ st.1 ∧
        RegionBorder board q = {c'}} = (∅ : Set (Nat × Nat)) := by
      intro c'
      rw [Set.eq_empty_iff_forall_not_mem]
      rintro x ⟨hx1, hx2, _⟩
      exact hx2 hx1
    refine ⟨hI1, Finset.Subset.refl _, fun x hx => absurd hx (List.not_mem_nil x), ?_, ?_⟩
    · rw [hD BLACK, Set.ncard_empty]
      simp
    · rw [hD WHITE, Set.ncard_empty]
      simp
  | cons x L ih =>
    intro st hL hI1 hI2
    obtain ⟨hx1, hx2⟩ := hL x (List.mem_cons_self _ _)
    obtain ⟨sI1, sI2, ssub, spmem, sbl, swh⟩ :=
      territoryStep_spec board hvb st x hx1 hx2 hI1 hI2
    simp only [List.foldl_cons]
    obtain ⟨gI1, gsub, gcov, gbl, gwh⟩ :=
      ih (territoryStep board st x) (fun y hy => hL y (List.mem_cons_of_mem _ hy)) sI1 sI2
    refine ⟨gI1, ssub.trans gsub, ?_, ?_, ?_⟩
    · intro y hy hye
      rcases List.mem_cons.mp hy with rfl | hy
      · exact gsub (spmem hye)
      · exact gcov y hy hye
    · have haux := ncard_split_aux board st.1 (territoryStep board st x).1
        (List.foldl (territoryStep board) (territoryStep board st x) L).1 BLACK ssub gsub
      rw [gbl, sbl]
      omega
    · have haux := ncard_split_aux board st.1 (territoryStep board st x).1
        (List.foldl (territoryStep board) (territoryStep board st x) L).1 WHITE ssub gsub
      rw [gwh, swh]
      omega

/-- **C5.** `chineseScore` (the spec's `areaScore`) realises the claimed
area partition on every board whose cells hold legal values: each color's
score equals its stone count plus the total size of the empty regions
whose bordering stone-color set is exactly that one color (regions
bordered by zero or both colors add to neither), and no cell is counted
toward both colors. -/
theorem C5_area_partition (board : Board) (hvb : ValidBoard board) :
    (chineseScore board).black =
      stoneCount board BLACK + Set.ncard (territorySet board BLACK) ∧
    (chineseScore board).white =
      stoneCount board WHITE + Set.ncard (territorySet board WHITE) ∧
    (∀ q : Nat × Nat,
      ¬((getCell board q.1 q.2 = BLACK ∨ q ∈ territorySet board BLACK) ∧
        (getCell board q.1 q.2 = WHITE ∨ q ∈ territorySet board WHITE))) := by
  obtain ⟨fI1, fsub, fcov, fbl, fwh⟩ := territory_fold board hvb (cellsList board.length)
    ((∅ : Finset (Nat × Nat)), stoneCount board BLACK, stoneCount board WHITE)
    (fun x hx => mem_cellsList.mp hx)
    (fun x hx => absurd hx (Finset.not_mem_empty x))
    (fun x hx => absurd hx (Finset.not_mem_empty x))
  set F := (cellsList board.length).foldl (territoryStep board)
    ((∅ : Finset (Nat × Nat)), stoneCount board BLACK, stoneCount board WHITE) with hF
  have hsetEq : ∀ c' : Nat, {q : Nat × Nat | q ∈ F.1 ∧
      q ∉ (((∅ : Finset (Nat × Nat)), stoneCount board BLACK,
        stoneCount board WHITE)).1 ∧
      RegionBorder board q = {c'}} = territorySet board c' := by
    intro c'
    ext q
    constructor
    · rintro ⟨hq1, _, hq3⟩
      obtain ⟨hb1, hb2, hbe⟩ := fI1 q hq1
      exact ⟨hb1, hb2, hbe, hq3⟩
    · rintro ⟨hb1, hb2, hbe, hq3⟩
      exact ⟨fcov q (mem_cellsList.mpr ⟨hb1, hb2⟩) hbe,
        fun h => Finset.not_mem_empty q h, hq3⟩
  refine ⟨?_, ?_, ?_⟩
  · simp only [chineseScore]
    rw [← hF, fbl, hsetEq BLACK]
  · simp only [chineseScore]
    rw [← hF, fwh, hsetEq WHITE]
  · intro q hq
    obtain ⟨h1, h2⟩ := hq
    simp only [territorySet, Set.mem_setOf_eq] at h1 h2
    rcases h1 with h1 | ⟨_, _, he1, hb1⟩ <;> rcases h2 with h2 | ⟨_, _, he2, hb2⟩
    · rw [h1] at h2
      exact absurd h2 (by decide)
    · rw [h1] at he2
      exact absurd he2 (by decide)
    · rw [h2] at he1
      exact absurd he1 (by decide)
    · rw [hb1] at hb2
      exact absurd (Set.singleton_eq_singleton_iff.mp hb2) (by decide)

/-- Witness for `C5_area_partition`: the 1×1 empty board, whose validity
hypothesis is checked by evaluation. -/
theorem C5_witness :
    ValidBoard [[EMPTY]] ∧
    ((chineseScore [[EMPTY]]).black =
      stoneCount [[EMPTY]] BLACK + Set.ncard (territorySet [[EMPTY]] BLACK) ∧
    (chineseScore [[EMPTY]]).white =
      stoneCount [[EMPTY]] WHITE + Set.ncard (territorySet [[EMPTY]] WHITE) ∧
    (∀ q : Nat × Nat,
      ¬((getCell [[EMPTY]] q.1 q.2 = BLACK ∨ q ∈ territorySet [[EMPTY]] BLACK) ∧
        (getCell [[EMPTY]] q.1 q.2 = WHITE ∨ q ∈ territorySet [[EMPTY]] WHITE)))) :=
  ⟨by decide, C5_area_partition [[EMPTY]] (by decide)⟩

end GoGame
